import Mathlib

/-!
Verification development for the `yamlparser` package
(`src/yamlparser/namespace.py`), a hierarchical configuration namespace.

A `NameSpace` (Python class `NameSpace`) stores its user entries in the
instance dictionary together with the two control fields `_modifiable` and
`_sub_config_key`.  Following the spec's data model, the embedding keeps the
two control fields as structure fields and `entries` as an insertion-ordered
association list; the reserved keys `_modifiable` / `_sub_config_key` are
assumed not to occur as user data keys (the spec's stated invariant).

Python values that can appear in a configuration (and in the instance
dictionary) are embedded as `PyVal`: scalars, lists, raw dictionaries and
`NameSpace` objects.  Exceptions are embedded with `Except Err`; each `Err`
constructor corresponds to one family of `raise`/failure sites in the source
(in Python they are `ValueError` / `AttributeError` / `KeyError`,
distinguished by message).  Python's recursion limit is embedded as an
explicit fuel parameter on the recursive loading machinery (`Err.recursionLimit`);
all theorems about loading are conditioned on successful (`Except.ok`) runs,
which makes the fuel value irrelevant to their content.

File I/O (`os.path.isfile` + `open` + `yaml.safe_load`) and the package
resource lister `list_config_files` (an external collaborator per the spec)
are embedded as an abstract file system `FS`:
`FS.files p = none` models "not a file" (the fall-through of
`_load_config_file`), `FS.files p = some v` models a file whose parsed
content is `v`.
-/

mutual

/-- A Python value as stored in configurations and namespace entries:
scalar (`str`/`int`/`bool`/`None`), list, raw `dict`, or a `NameSpace`. -/
inductive PyVal where
  | str (s : String)
  | int (n : Int)
  | bool (b : Bool)
  | null
  | list (xs : List PyVal)
  | dict (es : List (String × PyVal))
  | ns (n : NameSpace)

/-- The `NameSpace` class: control fields `_modifiable` and `_sub_config_key`
plus the insertion-ordered user entries of the instance `__dict__`. -/
inductive NameSpace where
  | mk (modifiable : Bool) (subKey : String) (entries : List (String × PyVal))

end

/-- `self._modifiable`. -/
def NameSpace.modifiable : NameSpace → Bool
  | .mk m _ _ => m

/-- `self._sub_config_key`. -/
def NameSpace.subKey : NameSpace → String
  | .mk _ k _ => k

/-- The user entries of the instance `__dict__` (insertion order). -/
def NameSpace.entries : NameSpace → List (String × PyVal)
  | .mk _ _ es => es

/-- Failure outcomes.  Each constructor names one family of raise sites of
`namespace.py` (Python types in parentheses):
* `recursionLimit` — Python's recursion limit (`RecursionError`), reached by
  unboundedly nested/linked configurations; embedded as fuel exhaustion;
* `frozen` — the `AttributeError`s raised by `set`/`delete`/`__setitem__`/
  `__getattr__` on a namespace with `_modifiable == False`;
* `keyNotFound` — `KeyError` from `__getitem__` on a missing key;
* `noAttribute` — a generic `AttributeError` from calling a method or
  attribute on an object that lacks it (e.g. `None.items()`, `int.set`);
* `notADictionary` — `ValueError("The configuration should be a dictionary")`
  in `load`;
* `ambiguousSubConfig` — `ValueError` in `_load_subconfig` (several keys,
  none matching);
* `configNotFound` / `ambiguousConfig` — the two `ValueError`s of
  `_load_config_file` for package resources (zero / several candidates);
* `badConfigRef` — `ValueError("Could not interpret configuration file ...")`
  for a reference with two or more `@` signs. -/
inductive Err where
  | recursionLimit
  | frozen (msg : String)
  | keyNotFound (key : String)
  | noAttribute (attr : String)
  | notADictionary
  | ambiguousSubConfig (name : String)
  | configNotFound (resource pkg : String)
  | ambiguousConfig (resource pkg : String)
  | badConfigRef (ref : String)
deriving DecidableEq

/-- The external world: `files p` is the parsed content of file `p`
(`none` when `os.path.isfile p` is false), and `packageFiles pkg ext` models
the collaborator `list_config_files pkg [ext]` (resources of package `pkg`
with filename extension `ext`). -/
structure FS where
  files : String → Option PyVal
  packageFiles : String → String → List String

/-! ### String helpers (Python `str` operations, at the `List Char` level)

Lean 4.14's `String` is a structure around `data : List Char`; the helpers
below work on that list so that splitting/joining admits plain structural
proofs.  Each models the Python operation named in its doc comment. -/

/-- Split a character list at the first occurrence of `c`:
`some (before, after)`, or `none` if `c` does not occur. -/
def splitCharFirst (c : Char) : List Char → Option (List Char × List Char)
  | [] => none
  | d :: rest =>
    if d = c then some ([], rest)
    else match splitCharFirst c rest with
      | some (a, b) => some (d :: a, b)
      | none => none

/-- Python `name.split(sep, 1)` for a one-character separator: `none` when the
separator does not occur (`sep in name` is false), otherwise the parts before
and after its first occurrence.  Used for `"." in name` / `name.split(".", 1)`
in `update`. -/
def splitFirst (c : Char) (s : String) : Option (String × String) :=
  match splitCharFirst c s.data with
  | some (a, b) => some (⟨a⟩, ⟨b⟩)
  | none => none

/-- Fuel-driven worker for `pySplit`; the fuel is an upper bound on the
string length plus one, so the first branch is unreachable for the fuel
chosen by `pySplit`. -/
def pySplitF (c : Char) : Nat → String → List String
  | 0, s => [s]
  | f + 1, s =>
    match splitFirst c s with
    | none => [s]
    | some (a, b) => a :: pySplitF c f b

/-- Python `s.split(sep)` for a one-character separator (always nonempty;
`"".split(".") == [""]`).  Models `key.split(".")` in `set`/`delete` and
`config.split("@")` in `_load_config_file`. -/
def pySplit (c : Char) (s : String) : List String :=
  pySplitF c (s.data.length + 1) s

/-- Python `s.strip()`: remove leading and trailing whitespace. -/
def pyStrip (s : String) : String :=
  ⟨(((s.data.dropWhile Char.isWhitespace).reverse.dropWhile Char.isWhitespace).reverse)⟩

/-- `True` iff `c` occurs in `s` (Python `c in s`). -/
def strContains (c : Char) (s : String) : Bool := s.data.contains c

/-- Python `str.endswith` (list-level suffix test). -/
def strEndsWith (s suffix : String) : Bool :=
  List.isSuffixOf suffix.data s.data

/-- `pathlib.Path(s).suffix`: the filename extension (with its dot) of the
last path component, `""` when the component has no dot. -/
def pathSuffix (s : String) : String :=
  let base : List Char := ((pySplit '/' s).getLastD s).data
  match splitCharFirst '.' base.reverse with
  | some (revExt, _) => ⟨'.' :: revExt.reverse⟩
  | none => ""

/-! ### Python `dict` on association lists

Python dictionaries preserve insertion order; assigning to an existing key
updates it in place, assigning to a fresh key appends.  `__dict__.update`
(and `dict.update`) assigns every pair of the argument in order. -/

/-- `d[k] = v` on an insertion-ordered association list. -/
def assign (es : List (String × PyVal)) (k : String) (v : PyVal) :
    List (String × PyVal) :=
  if es.any (fun p => p.1 = k) then
    es.map (fun p => if p.1 = k then (k, v) else p)
  else
    es ++ [(k, v)]

/-- `d.get(k)`: first binding of `k`, if any. -/
def lookupA : List (String × PyVal) → String → Option PyVal
  | [], _ => none
  | (k', v) :: rest, k => if k' = k then some v else lookupA rest k

/-- `d.update(new)`: assign every pair of `new` in order. -/
def pyDictUpdate : List (String × PyVal) → List (String × PyVal) →
    List (String × PyVal)
  | es, [] => es
  | es, (k, v) :: rest => pyDictUpdate (assign es k v) rest

/-- `self.keys()` (`namespace.py` line 94): the keys of `self.dict()`, which
are exactly the user entry keys in insertion order. -/
def NameSpace.keys (ns : NameSpace) : List String :=
  ns.entries.map Prod.fst

/-! ### Loading (`_load_config_file`, `load`) -/

/-- `NameSpace._load_config_file` (lines 322–352).  A reference without `@` is
a bare path, stripped and looked up directly; `pkg@resource` is resolved
through the package resource lister by suffix matching; two or more `@` signs
fail.  When the chosen path is not a file the Python function falls through
and implicitly returns `None`, embedded as `.ok none`. -/
def loadConfigFile (fs : FS) (config : String) : Except Err (Option PyVal) :=
  match pySplit '@' config with
  | [s] => .ok (fs.files (pyStrip s))
  | [pkg, res] =>
    let package := pyStrip pkg
    let resource := pyStrip res
    let packageFiles := fs.packageFiles package (pathSuffix resource)
    match packageFiles.filter (fun f => strEndsWith f resource) with
    | [] => .error (.configNotFound resource package)
    | [c] => .ok (fs.files c)
    | _ => .error (.ambiguousConfig resource package)
  | _ => .error (.badConfigRef config)

/-- `NameSpace.load` (lines 197–204): a string goes through
`_load_config_file`; a dictionary is passed through; anything else raises
`ValueError("The configuration should be a dictionary")`.  The `Option` is
Python's `None` (missing file / empty file). -/
def loadCfg (fs : FS) (config : PyVal) : Except Err (Option PyVal) :=
  match config with
  | .str s => loadConfigFile fs s
  | .dict d => .ok (some (.dict d))
  | _ => .error .notADictionary

/-! ### The update/merge engine (`update`, `__init__`, `_load_subconfig`)

The five functions below are the recursive loading cluster.  Each one burns
one unit of fuel per call, modelling Python's recursion limit; apart from
`Err.recursionLimit` outcomes the fuel value is inert. -/

mutual

/-- `NameSpace.update` (lines 148–180).  Loads `config`, then builds a fresh
local dictionary `config = {}` entry by entry (`buildLocal`), and finally
merges it into the instance dictionary with `self.__dict__.update(config)`.
A loaded result that is not a dictionary (`None` from a missing file, or a
non-mapping document) fails at `loaded_config.items()` with an
`AttributeError` (`noAttribute "items"`). -/
def NameSpace.update (fs : FS) : Nat → NameSpace → PyVal → Except Err NameSpace
  | 0, _, _ => .error .recursionLimit
  | fuel + 1, ns, config => do
    let loaded ← loadCfg fs config
    match loaded with
    | some (.dict items) => do
      let localCfg ← buildLocal fs fuel ns [] items
      .ok (.mk ns.modifiable ns.subKey (pyDictUpdate ns.entries localCfg))
    | _ => .error (.noAttribute "items")

/-- `NameSpace.__init__` (lines 69–88): start with `_modifiable = True`,
`update(config)`, then set `_modifiable` to the requested value. -/
def NameSpace.mkNS (fs : FS) : Nat → PyVal → Bool → String →
    Except Err NameSpace
  | 0, _, _, _ => .error .recursionLimit
  | fuel + 1, config, modifiable, subKey => do
    let ns ← NameSpace.update fs fuel (.mk true subKey []) config
    .ok (.mk modifiable ns.subKey ns.entries)

/-- The `for name, value in loaded_config.items()` loop of `update`
(lines 154–177), building the local dictionary `acc`.  A dotted name is split
at its first period; the entry `first` of the *local* dictionary (a fresh
empty namespace if absent) is updated with `{rest: value}`.  Otherwise a
dictionary value goes through `_load_subconfig`, a list value has its
dictionary elements promoted, and any other value is stored unchanged. -/
def buildLocal (fs : FS) : Nat → NameSpace → List (String × PyVal) →
    List (String × PyVal) → Except Err (List (String × PyVal))
  | 0, _, _, _ => .error .recursionLimit
  | _ + 1, _, acc, [] => .ok acc
  | fuel + 1, ns, acc, (name, value) :: rest =>
    match splitFirst '.' name with
    | some (first, restKey) => do
      let child ← match lookupA acc first with
        | some (.ns c) => .ok c
        | some _ => .error (.noAttribute "update")
        | none => NameSpace.mkNS fs fuel (.dict []) ns.modifiable ns.subKey
      let child' ← NameSpace.update fs fuel child (.dict [(restKey, value)])
      buildLocal fs fuel ns (assign acc first (.ns child')) rest
    | none =>
      match value with
      | .dict d => do
        let sub ← loadSubconfig fs fuel ns name d
        buildLocal fs fuel ns (assign acc name (.ns sub)) rest
      | .list xs => do
        let xs' ← buildListElems fs fuel ns name xs
        buildLocal fs fuel ns (assign acc name (.list xs')) rest
      | v => buildLocal fs fuel ns (assign acc name v) rest

/-- The list branch of `update` (lines 169–175): dictionary elements are
promoted through `_load_subconfig` (under the *same* entry name), all other
elements are kept verbatim. -/
def buildListElems (fs : FS) : Nat → NameSpace → String → List PyVal →
    Except Err (List PyVal)
  | 0, _, _, _ => .error .recursionLimit
  | _ + 1, _, _, [] => .ok []
  | fuel + 1, ns, name, x :: rest =>
    match x with
    | .dict d => do
      let sub ← loadSubconfig fs fuel ns name d
      let rest' ← buildListElems fs fuel ns name rest
      .ok (.ns sub :: rest')
    | _ => do
      let rest' ← buildListElems fs fuel ns name rest
      .ok (x :: rest')

/-- `NameSpace._load_subconfig` (lines 126–145).  Build a candidate namespace
from `value`; when it has no `sub_config_key` entry, return it unchanged.
Otherwise load the referenced sub-configuration, select its child named
`name` — or its single child, or fail with the "has several keys" error —
and overlay every non-marker pair of the original `value` on top via
`update`. -/
def loadSubconfig (fs : FS) : Nat → NameSpace → String →
    List (String × PyVal) → Except Err NameSpace
  | 0, _, _, _ => .error .recursionLimit
  | fuel + 1, ns, name, value => do
    let namespace1 ← NameSpace.mkNS fs fuel (.dict value) ns.modifiable ns.subKey
    if ns.subKey ∈ namespace1.keys then do
      let ref ← match lookupA namespace1.entries ns.subKey with
        | some r => .ok r
        | none => .error (.keyNotFound ns.subKey)
      let subConfig ← NameSpace.mkNS fs fuel ref ns.modifiable ns.subKey
      let keys := subConfig.keys
      let chosen ←
        if name ∈ keys then
          match lookupA subConfig.entries name with
          | some r => .ok r
          | none => .error (.keyNotFound name)
        else if keys.length = 1 then
          match lookupA subConfig.entries (keys.headD "") with
          | some r => .ok r
          | none => .error (.keyNotFound (keys.headD ""))
        else
          .error (.ambiguousSubConfig name)
      -- `namespace.update({...})`: only a namespace object has `.update`
      let base ← match chosen with
        | .ns b => .ok b
        | _ => .error (.noAttribute "update")
      NameSpace.update fs fuel base
        (.dict (value.filter (fun p => p.1 ≠ ns.subKey)))
    else
      .ok namespace1

end

/-! ### Access/mutation layer -/

/-- `NameSpace.__getitem__` (lines 281–285): direct entry lookup,
`KeyError` when absent. -/
def NameSpace.getItem (ns : NameSpace) (key : String) : Except Err PyVal :=
  match lookupA ns.entries key with
  | some v => .ok v
  | none => .error (.keyNotFound key)

/-- `NameSpace.__setitem__` (lines 287–294): frozen namespaces raise; a
dictionary value is converted through the `NameSpace` constructor (full
update pipeline, including dotted keys and sub-config delegation below the
top level); any other value — including a list, with any raw dictionaries
inside it — is stored verbatim. -/
def NameSpace.setItem (fs : FS) (fuel : Nat) (ns : NameSpace) (key : String)
    (value : PyVal) : Except Err NameSpace :=
  if ns.modifiable = false then
    .error (.frozen ("You are trying to set key " ++ key ++ " in a frozen namespace"))
  else
    match value with
    | .dict d => do
      let sub ← NameSpace.mkNS fs fuel (.dict d) ns.modifiable ns.subKey
      .ok (.mk ns.modifiable ns.subKey (assign ns.entries key (.ns sub)))
    | v => .ok (.mk ns.modifiable ns.subKey (assign ns.entries key v))

/-- Python attribute read `getattr(self, key)` combined with
`NameSpace.__getattr__` (lines 296–305), which fires only when the attribute
is missing: an existing entry is returned as is; the reserved control keys
resolve to the control fields; otherwise a frozen namespace raises, and a
modifiable one creates an empty child namespace, attaches it (the source
attaches via `self.update({key: namespace})`, which for a period-free key
stores the child verbatim) and returns it.  The second component is the
possibly extended namespace. -/
def NameSpace.getattrOp (ns : NameSpace) (key : String) :
    Except Err (PyVal × NameSpace) :=
  match lookupA ns.entries key with
  | some v => .ok (v, ns)
  | none =>
    if key = "_modifiable" then .ok (.bool ns.modifiable, ns)
    else if key = "_sub_config_key" then .ok (.str ns.subKey, ns)
    else if ns.modifiable = false then
      .error (.frozen ("You are trying to add new key " ++ key ++ " to a frozen namespace"))
    else
      let child : NameSpace := .mk ns.modifiable ns.subKey []
      .ok (.ns child, .mk ns.modifiable ns.subKey (assign ns.entries key (.ns child)))

/-- `NameSpace.set` (lines 105–113): frozen namespaces raise; a dotted key
recurses into `getattr(self, keys[0])` — only a namespace value has a `.set`
attribute, anything else raises `AttributeError` — on the remainder of the
key (`key.split(".")` rejoined past the first segment is exactly the text
after the first period); a plain key is assigned with `self[key] = value`.
As in the loading cluster, one unit of fuel is burnt per recursive step
(Python's recursion depth here is bounded by the number of key segments). -/
def NameSpace.set (fs : FS) : Nat → NameSpace → String → PyVal →
    Except Err NameSpace
  | 0, _, _, _ => .error .recursionLimit
  | fuel + 1, ns, key, value =>
    if ns.modifiable = false then
      .error (.frozen ("You are trying to overwrite key " ++ key ++ " in a frozen namespace"))
    else
      match splitFirst '.' key with
      | none => NameSpace.setItem fs fuel ns key value
      | some (first, rest) => do
        let (attr, ns1) ← ns.getattrOp first
        match attr with
        | .ns c => do
          let c' ← NameSpace.set fs fuel c rest value
          .ok (.mk ns1.modifiable ns1.subKey (assign ns1.entries first (.ns c')))
        | _ => .error (.noAttribute "set")

/-- `NameSpace.delete` (lines 115–124): frozen namespaces raise; a dotted key
recurses through `self[keys[0]]` (`KeyError` when absent, `AttributeError`
when the value is not a namespace); a plain key is removed with
`delattr` (`AttributeError` when absent).  Fuel as in `set`. -/
def NameSpace.delete : Nat → NameSpace → String → Except Err NameSpace
  | 0, _, _ => .error .recursionLimit
  | fuel + 1, ns, key =>
    if ns.modifiable = false then
      .error (.frozen ("You are trying to delete key " ++ key ++ " from a frozen namespace"))
    else
      match splitFirst '.' key with
      | none =>
        match lookupA ns.entries key with
        | some _ => .ok (.mk ns.modifiable ns.subKey
            (ns.entries.filter (fun p => p.1 ≠ key)))
        | none => .error (.noAttribute key)
      | some (first, rest) => do
        let child ← match lookupA ns.entries first with
          | some (.ns c) => .ok c
          | some _ => .error (.noAttribute "delete")
          | none => .error (.keyNotFound first)
        let child' ← NameSpace.delete fuel child rest
        .ok (.mk ns.modifiable ns.subKey (assign ns.entries first (.ns child')))

/-- Chained item access along a list of key segments
(`ns[k1][k2]...[kn]`), the reading direction of a dotted path:
`KeyError` on a missing key, and an error when indexing reaches a
non-namespace value before the last segment. -/
def NameSpace.getPath : NameSpace → List String → Except Err PyVal
  | ns, [] => .ok (.ns ns)
  | ns, [k] => ns.getItem k
  | ns, k :: rest =>
    match lookupA ns.entries k with
    | some (.ns c) => c.getPath rest
    | some _ => .error (.noAttribute "getitem")
    | none => .error (.keyNotFound k)

/-! ### Freeze / unfreeze (lines 182–195)

Both recurse over the values of `vars(self)` and only into those that are
`NameSpace` instances — a namespace stored inside a list element is *not*
traversed. -/

mutual

/-- `NameSpace.freeze`: recursively set `_modifiable = False` on this node
and on every entry value that is itself a namespace. -/
def NameSpace.freeze : NameSpace → NameSpace
  | .mk _ k es => .mk false k (freezeEntries es)

/-- The `for value in vars(self).values()` loop of `freeze`. -/
def freezeEntries : List (String × PyVal) → List (String × PyVal)
  | [] => []
  | (k, v) :: rest => (k, freezeVal v) :: freezeEntries rest

/-- One entry value of `freeze`: recurse on namespaces, keep everything else
(including lists that contain namespaces) unchanged. -/
def freezeVal : PyVal → PyVal
  | .ns n => .ns n.freeze
  | v => v

end

mutual

/-- `NameSpace.unfreeze`: recursively set `_modifiable = True`. -/
def NameSpace.unfreeze : NameSpace → NameSpace
  | .mk _ k es => .mk true k (unfreezeEntries es)

/-- The `for value in vars(self).values()` loop of `unfreeze`. -/
def unfreezeEntries : List (String × PyVal) → List (String × PyVal)
  | [] => []
  | (k, v) :: rest => (k, unfreezeVal v) :: unfreezeEntries rest

/-- One entry value of `unfreeze`. -/
def unfreezeVal : PyVal → PyVal
  | .ns n => .ns n.unfreeze
  | v => v

end

/-! ### Views: `dict`, `attributes` -/

mutual

/-- `NameSpace.dict` (lines 273–275): the plain nested representation —
namespace entry values are converted recursively, every other value
(including a list that contains namespace elements) is kept verbatim;
control keys are excluded. -/
def NameSpace.dict : NameSpace → PyVal
  | .mk _ _ es => .dict (dictEntries es)

/-- The comprehension of `NameSpace.dict` over the entries. -/
def dictEntries : List (String × PyVal) → List (String × PyVal)
  | [] => []
  | (k, v) :: rest => (k, dictVal v) :: dictEntries rest

/-- One entry value of `NameSpace.dict`. -/
def dictVal : PyVal → PyVal
  | .ns n => n.dict
  | v => v

end

mutual

/-- `NameSpace.attributes` (lines 255–271): the flattened dotted view —
namespace entry values contribute their own attributes prefixed with
`key + "."` (merged with `dict.update`), every other value is recorded under
its plain key; control keys are excluded. -/
def NameSpace.attributes : NameSpace → List (String × PyVal)
  | .mk _ _ es => attrFold [] es

/-- The `for key in vars(self)` loop of `attributes`, accumulating into the
result dictionary. -/
def attrFold (acc : List (String × PyVal)) :
    List (String × PyVal) → List (String × PyVal)
  | [] => acc
  | (k, v) :: rest =>
    match v with
    | .ns n => attrFold
        (pyDictUpdate acc ((n.attributes).map (fun p => (k ++ "." ++ p.1, p.2)))) rest
    | _ => attrFold (assign acc k v) rest

end

/-- `NameSpace.clone` (lines 90–92): rebuild from `self.dict()` with the
same root `_modifiable` and `_sub_config_key`. -/
def NameSpace.clone (fs : FS) (fuel : Nat) (ns : NameSpace) :
    Except Err NameSpace :=
  NameSpace.mkNS fs fuel ns.dict ns.modifiable ns.subKey

/-! ### Formatting layer (`format`, `format_self`) -/

/-- Fuel-driven worker for left-to-right, non-overlapping replacement of
`pat` by `rep` (Python `str.replace`); the fuel is an upper bound on the
input length plus one (the pattern is nonempty here, so each step shortens
the input and the zero-fuel branch is unreachable for the fuel chosen by
`strReplace`). -/
def replCharsF (pat rep : List Char) : Nat → List Char → List Char
  | 0, l => l
  | _ + 1, [] => []
  | f + 1, c :: rest =>
    if pat.isPrefixOf (c :: rest) then
      rep ++ replCharsF pat rep f ((c :: rest).drop pat.length)
    else
      c :: replCharsF pat rep f rest

/-- Python `s.replace(pat, rep)`.  An empty pattern leaves the input
unchanged (the patterns produced by `format` are always `"{" ++ key ++ "}"`,
never empty). -/
def strReplace (s pat rep : String) : String :=
  if pat.data.isEmpty then s
  else ⟨replCharsF pat.data rep.data (s.data.length + 1) s.data⟩

mutual

/-- Python `str(v)` as used by `format` when substituting a value into a
string.  Scalar renderings match Python exactly; the renderings of lists,
raw dictionaries and namespaces (Python would use `repr` element-wise /
`yaml.dump`) belong to the external serialization collaborator and are
approximated structurally. -/
def pyStr : PyVal → String
  | .str s => s
  | .int n => toString n
  | .bool true => "True"
  | .bool false => "False"
  | .null => "None"
  | .list xs => "[" ++ pyStrList xs ++ "]"
  | .dict es => "\x7b" ++ pyStrEntries es ++ "\x7d"
  | .ns n =>
    match n with
    | .mk _ _ es => "NameSpace \x7b" ++ pyStrEntries es ++ "\x7d"

/-- Comma-joined renderings of list elements. -/
def pyStrList : List PyVal → String
  | [] => ""
  | [x] => pyStr x
  | x :: rest => pyStr x ++ ", " ++ pyStrList rest

/-- Comma-joined renderings of dictionary entries. -/
def pyStrEntries : List (String × PyVal) → String
  | [] => ""
  | [(k, v)] => k ++ ": " ++ pyStr v
  | (k, v) :: rest => k ++ ": " ++ pyStr v ++ ", " ++ pyStrEntries rest

end

/-- The replacement loop of `NameSpace.format` (lines 225–227): for every
`(k, v)` of `self.attributes()`, in order, replace every occurrence of
`"{" + k + "}"` by `str(v)`. -/
def formatStrWith : List (String × PyVal) → String → String
  | [], s => s
  | (k, v) :: rest, s =>
    formatStrWith rest (strReplace s ("\x7b" ++ k ++ "\x7d") (pyStr v))

/-- `NameSpace.format` on a string argument. -/
def NameSpace.formatStr (ns : NameSpace) (s : String) : String :=
  formatStrWith ns.attributes s

mutual

/-- `NameSpace.format` (lines 211–227): a list is formatted element-wise
(string and list elements only, everything else passes through); a string
goes through the replacement loop over `self.attributes()`.  The source only
ever applies `format` to strings and lists; other values are returned
unchanged here. -/
def NameSpace.format (ns : NameSpace) : PyVal → PyVal
  | .list xs => .list (formatList ns xs)
  | .str s => .str (ns.formatStr s)
  | v => v

/-- The list comprehension of `format`. -/
def formatList (ns : NameSpace) : List PyVal → List PyVal
  | [] => []
  | x :: rest =>
    match x with
    | .str _ => ns.format x :: formatList ns rest
    | .list _ => ns.format x :: formatList ns rest
    | _ => x :: formatList ns rest

end

/-- The first loop of `NameSpace.format_self` (lines 242–244): iterate over a
snapshot of `self.attributes()`; for every string or list value, compute
`self.format(value)` against the *current* state and store it with
`self.set(key, ...)` (a dotted-path write). -/
def formatPass (fs : FS) (fuel : Nat) :
    NameSpace → List (String × PyVal) → Except Err NameSpace
  | ns, [] => .ok ns
  | ns, (k, v) :: rest =>
    match v with
    | .str _ => do
      let ns' ← NameSpace.set fs fuel ns k (ns.format v)
      formatPass fs fuel ns' rest
    | .list _ => do
      let ns' ← NameSpace.set fs fuel ns k (ns.format v)
      formatPass fs fuel ns' rest
    | _ => formatPass fs fuel ns rest

mutual

/-- `NameSpace.format_self` (lines 229–248): first format and re-store every
string/list attribute of the flattened view (dotted keys included, so deep
leaves are formatted against *this* node's view), then recurse into every
entry value that is a namespace.  Fuel bounds the recursion depth into
children, as in the loading cluster. -/
def NameSpace.formatSelf (fs : FS) : Nat → NameSpace → Except Err NameSpace
  | 0, _ => .error .recursionLimit
  | fuel + 1, ns => do
    let ns1 ← formatPass fs fuel ns ns.attributes
    let es ← formatSelfChildren fs fuel ns1.entries
    .ok (.mk ns1.modifiable ns1.subKey es)

/-- The `for value in vars(self).values()` recursion of `format_self`. -/
def formatSelfChildren (fs : FS) : Nat → List (String × PyVal) →
    Except Err (List (String × PyVal))
  | 0, _ => .error .recursionLimit
  | _ + 1, [] => .ok []
  | fuel + 1, (k, v) :: rest =>
    match v with
    | .ns c => do
      let c' ← NameSpace.formatSelf fs fuel c
      let rest' ← formatSelfChildren fs fuel rest
      .ok ((k, .ns c') :: rest')
    | _ => do
      let rest' ← formatSelfChildren fs fuel rest
      .ok ((k, v) :: rest')

end


/-! ### Basic lemmas about the association-list dictionary -/


/-! ### Derived predicates and reference functions for the theorems below -/

/-- `"." in s` (so the name would be split by `update`/`set`/`delete`). -/
def hasDot (s : String) : Bool := (splitFirst '.' s).isSome

/-- The first segment of a dotted name (the whole name when it has no
period). -/
def headSeg (s : String) : String :=
  match splitFirst '.' s with
  | some (a, _) => a
  | none => s

/-- Keys of an association list are pairwise distinct (Python dictionaries
cannot carry duplicate keys). -/
def nodupKeys : List (String × PyVal) → Bool
  | [] => true
  | (k, _) :: rest => !(rest.any (fun p => p.1 = k)) && nodupKeys rest

mutual

/-- Deep invariant: no entry key of this namespace, nor of any namespace
nested anywhere below it (including inside list values), contains a
period. -/
def noDotNS : NameSpace → Bool
  | .mk _ _ es => noDotEntries es

/-- `noDotNS` over stored entries. -/
def noDotEntries : List (String × PyVal) → Bool
  | [] => true
  | (k, v) :: rest => !hasDot k && noDotVal v && noDotEntries rest

/-- `noDotNS` over one value: namespaces recursively satisfy the invariant;
raw dictionary *keys* are unconstrained (a dotted key inside configuration
data is decomposed when it is consumed by `update`), but namespaces nested
in their values are checked. -/
def noDotVal : PyVal → Bool
  | .ns n => noDotNS n
  | .dict es => noDotDict es
  | .list xs => noDotList xs
  | _ => true

/-- `noDotVal` over raw dictionary entries. -/
def noDotDict : List (String × PyVal) → Bool
  | [] => true
  | (_, v) :: rest => noDotVal v && noDotDict rest

/-- `noDotVal` over list elements. -/
def noDotList : List PyVal → Bool
  | [] => true
  | x :: rest => noDotVal x && noDotList rest

end

/-- A file system is yaml-like when parsed file contents contain no
namespace objects with dotted keys — in particular any output of a yaml
parser (which never produces `NameSpace` objects) qualifies. -/
def FS.noDot (fs : FS) : Prop :=
  ∀ p v, fs.files p = some v → noDotVal v = true

mutual

/-- A *plain* configuration dictionary: keys have no periods, never equal
the sub-config marker `K`, and are pairwise distinct; values are scalars,
plain dictionaries, or lists of scalars (no namespace objects, no
dictionaries inside lists). -/
def wfEntries (K : String) : List (String × PyVal) → Bool
  | [] => true
  | (k, v) :: rest =>
    !hasDot k && !(k = K) && !(rest.any (fun p => p.1 = k)) &&
      wfVal K v && wfEntries K rest

/-- A plain value (see `wfEntries`). -/
def wfVal (K : String) : PyVal → Bool
  | .dict es => wfEntries K es
  | .list xs => wfElems xs
  | .ns _ => false
  | _ => true

/-- A plain list element: scalars and lists of plain elements only. -/
def wfElems : List PyVal → Bool
  | [] => true
  | x :: rest =>
    match x with
    | .dict _ => false
    | .ns _ => false
    | .list ys => wfElems ys && wfElems rest
    | _ => wfElems rest

end

mutual

/-- A namespace tree that is the image of a plain configuration dictionary:
sub-config key `K` everywhere, plain distinct period-free keys, namespace
children of the same shape, and only plain values elsewhere (no raw
dictionaries, no namespaces inside lists). -/
def wfNS (K : String) : NameSpace → Bool
  | .mk _ k es => k = K && wfNSEntries K es

/-- `wfNS` over stored entries. -/
def wfNSEntries (K : String) : List (String × PyVal) → Bool
  | [] => true
  | (k, v) :: rest =>
    !hasDot k && !(k = K) && !(rest.any (fun p => p.1 = k)) &&
      wfNSVal K v && wfNSEntries K rest

/-- `wfNS` over one stored value. -/
def wfNSVal (K : String) : PyVal → Bool
  | .ns n => wfNS K n
  | .dict _ => false
  | .list xs => wfElems xs
  | _ => true

end

mutual

/-- The namespace tree that `update` builds from a plain configuration
dictionary (see `wfEntries`): dictionary values become child namespaces
(children are built while the root is temporarily modifiable, so they carry
`_modifiable = True`), everything else is stored verbatim. -/
def mirrorEntries (K : String) : List (String × PyVal) → List (String × PyVal)
  | [] => []
  | (k, v) :: rest => (k, mirrorVal K v) :: mirrorEntries K rest

/-- `mirrorEntries` on one value. -/
def mirrorVal (K : String) : PyVal → PyVal
  | .dict es => .ns (.mk true K (mirrorEntries K es))
  | v => v

end

/-- The dotted flattening of a plain configuration dictionary, written from
the spec's description of the attribute view: a nested mapping contributes
its own flattening with `key + "."` prefixed, any other value is kept under
its plain key. -/
def flattenSpec : List (String × PyVal) → List (String × PyVal)
  | [] => []
  | (k, v) :: rest =>
    match v with
    | .dict sub =>
      (flattenSpec sub).map (fun p => (k ++ "." ++ p.1, p.2)) ++ flattenSpec rest
    | _ => (k, v) :: flattenSpec rest

/-- Reachability along namespace-valued entries: exactly the nodes visited
by the recursions of `freeze` and `unfreeze`. -/
inductive NSIn : NameSpace → NameSpace → Prop where
  | refl (ns : NameSpace) : NSIn ns ns
  | child {d c : NameSpace} (k : String) (ns : NameSpace)
      (hlook : lookupA ns.entries k = some (.ns c)) (hin : NSIn d c) :
      NSIn d ns

/-- A file system with no files at all. -/
def emptyFS : FS := ⟨fun _ => none, fun _ _ => []⟩

/-- A file system with the single file `sub.yml` holding the two-key mapping
`{x: {p: 1}, y: {q: 2}}` (the sub-config delegation example). -/
def subFS : FS :=
  ⟨fun p =>
    if p = "sub.yml" then
      some (.dict [("x", .dict [("p", .int 1)]), ("y", .dict [("q", .int 2)])])
    else none,
   fun _ _ => []⟩


theorem lookupA_map_assign (es : List (String × PyVal)) (k : String) (v : PyVal)
    (h : es.any (fun p => p.1 = k) = true) :
    lookupA (es.map (fun p => if p.1 = k then (k, v) else p)) k = some v := by
  induction es with
  | nil => simp at h
  | cons e rest ih =>
    by_cases he : e.1 = k
    · simp only [List.map_cons]
      rw [if_pos he]
      simp [lookupA]
    · simp only [List.any_cons, he] at h
      simp only [List.map_cons]
      rw [if_neg he]
      obtain ⟨k1, v1⟩ := e
      simp only [lookupA]
      simp only at he
      rw [if_neg he]
      exact ih (by simpa using h)

theorem lookupA_append_mid (es : List (String × PyVal)) (k : String) (v : PyVal)
    (h : es.any (fun p => p.1 = k) = false) :
    lookupA (es ++ [(k, v)]) k = some v := by
  induction es with
  | nil => simp [lookupA]
  | cons e rest ih =>
    simp only [List.any_cons, Bool.or_eq_false_iff] at h
    obtain ⟨k1, v1⟩ := e
    simp only [List.cons_append, lookupA]
    have : ¬ k1 = k := by simpa using h.1
    rw [if_neg this]
    exact ih h.2

theorem lookupA_assign_self (es : List (String × PyVal)) (k : String) (v : PyVal) :
    lookupA (assign es k v) k = some v := by
  unfold assign
  by_cases h : (es.any (fun p => p.1 = k)) = true
  · simp only [h, if_true]; exact lookupA_map_assign es k v h
  · have h' : es.any (fun p => p.1 = k) = false := by
      cases hh : es.any (fun p => p.1 = k) with
      | true => exact absurd hh h
      | false => rfl
    simp only [h', if_false, Bool.false_eq_true]
    exact lookupA_append_mid es k v h'

theorem lookupA_map_assign_ne (es : List (String × PyVal)) {k k' : String}
    (v : PyVal) (h : k ≠ k') :
    lookupA (es.map (fun p => if p.1 = k then (k, v) else p)) k' =
      lookupA es k' := by
  induction es with
  | nil => simp
  | cons e rest ih =>
    obtain ⟨k1, v1⟩ := e
    simp only [List.map_cons]
    dsimp only
    by_cases he : k1 = k
    · rw [if_pos he]
      simp only [lookupA]
      rw [if_neg h, if_neg (he ▸ h)]
      exact ih
    · rw [if_neg he]
      simp only [lookupA]
      by_cases h2 : k1 = k'
      · simp [h2]
      · rw [if_neg h2, if_neg h2]
        exact ih

theorem lookupA_assign_ne (es : List (String × PyVal)) {k k' : String}
    (v : PyVal) (h : k ≠ k') :
    lookupA (assign es k v) k' = lookupA es k' := by
  unfold assign
  by_cases ha : (es.any (fun p => p.1 = k)) = true
  · simp only [ha, if_true]
    exact lookupA_map_assign_ne es v h
  · have h' : es.any (fun p => p.1 = k) = false := by
      cases hh : es.any (fun p => p.1 = k) with
      | true => exact absurd hh ha
      | false => rfl
    simp only [h', if_false, Bool.false_eq_true]
    induction es with
    | nil => simp [lookupA, h]
    | cons e rest ih =>
      obtain ⟨k1, v1⟩ := e
      simp only [List.any_cons, Bool.or_eq_false_iff] at h'
      simp only [List.cons_append, lookupA]
      by_cases h2 : k1 = k'
      · simp [h2]
      · rw [if_neg h2, if_neg h2]
        exact ih (by simp [h'.2]) h'.2

/-! ### Claim C1 — dotted update of an existing sub-namespace -/

/-- **C1, counterexample.**  The claim states that after building a root from
`{a: {b: 1, c: 2}}`, a subsequent `update({"a.b": 99})` merges into the
existing sub-namespace `a`, leaving `a.c == 2`.  In the source, `update`
builds its local dictionary from scratch (`config = {}` at line 154) and
checks `first not in config.keys()` against that *local* dictionary, so the
second call creates a fresh sub-namespace holding only `b` and
`self.__dict__.update(config)` replaces `a` wholesale: `a.b` is `99`, but
`a.c` is gone (`KeyError`), not `2`. -/
theorem claim1_counterexample :
    (do
      let n1 ← NameSpace.mkNS emptyFS 30
        (.dict [("a", .dict [("b", .int 1), ("c", .int 2)])]) true "yaml"
      let n2 ← NameSpace.update emptyFS 30 n1 (.dict [("a.b", .int 99)])
      n2.getPath ["a", "b"]) = .ok (.int 99) ∧
    (do
      let n1 ← NameSpace.mkNS emptyFS 30
        (.dict [("a", .dict [("b", .int 1), ("c", .int 2)])]) true "yaml"
      let n2 ← NameSpace.update emptyFS 30 n1 (.dict [("a.b", .int 99)])
      n2.getPath ["a", "c"]) = .error (.keyNotFound "c") ∧
    (do
      let n1 ← NameSpace.mkNS emptyFS 30
        (.dict [("a", .dict [("b", .int 1), ("c", .int 2)])]) true "yaml"
      let n2 ← NameSpace.update emptyFS 30 n1 (.dict [("a.b", .int 99)])
      n2.getPath ["a", "c"]) ≠ .ok (.int 2) := by
  refine ⟨rfl, rfl, fun h => ?_⟩
  have he : (do
      let n1 ← NameSpace.mkNS emptyFS 30
        (.dict [("a", .dict [("b", .int 1), ("c", .int 2)])]) true "yaml"
      let n2 ← NameSpace.update emptyFS 30 n1 (.dict [("a.b", .int 99)])
      n2.getPath ["a", "c"]) = (.error (.keyNotFound "c") : Except Err PyVal) := rfl
  exact Except.noConfusion (he.symm.trans h)

/-- **C1, amended.**  A subsequent `update({"a.b": 99})` *replaces* the
sub-namespace `a` wholesale (as the docstring of `update` says:
"Sub-namespaces will be entirely overwritten, not updated"): afterwards
`a.b == 99` and `a` holds only the key `b`.  A dotted key only merges with a
sub-namespace created by the *same* `update` call, as when both `a` and
`"a.b"` appear in one input mapping. -/
theorem claim1_amended :
    (do
      let n1 ← NameSpace.mkNS emptyFS 30
        (.dict [("a", .dict [("b", .int 1), ("c", .int 2)])]) true "yaml"
      NameSpace.update emptyFS 30 n1 (.dict [("a.b", .int 99)])) =
      .ok (.mk true "yaml" [("a", .ns (.mk true "yaml" [("b", .int 99)]))]) ∧
    NameSpace.mkNS emptyFS 30
        (.dict [("a", .dict [("b", .int 1), ("c", .int 2)]), ("a.b", .int 99)])
        true "yaml" =
      .ok (.mk true "yaml"
        [("a", .ns (.mk true "yaml" [("b", .int 99), ("c", .int 2)]))]) :=
  ⟨rfl, rfl⟩

/-! ### Claim C9 — `format_self` interpolation -/

/-- **C9, counterexample.**  The claim states that `format_self` replaces
each string leaf with the result of formatting it against *its own* node's
attribute view.  In the source, the root call of `format_self` iterates over
the root's flattened attribute view (dotted keys included) and formats every
deep leaf with `self.format`, i.e. against the *root's* view, before the
recursion into children runs.  For `{key: "ROOT", child: {key: "CHILD",
x: "{key}"}}` the leaf `child.x` would become `"CHILD"` under the claimed
own-node formatting, but the code produces `"ROOT"`. -/
theorem claim9_counterexample :
    (do
      let n ← NameSpace.mkNS emptyFS 30
        (.dict [("key", .str "ROOT"),
                ("child", .dict [("key", .str "CHILD"), ("x", .str "{key}")])])
        true "yaml"
      let r ← NameSpace.formatSelf emptyFS 30 n
      r.getPath ["child", "x"]) = .ok (.str "ROOT") ∧
    NameSpace.formatStr
        (.mk true "yaml" [("key", .str "CHILD"), ("x", .str "{key}")])
        "{key}" = "CHILD" ∧
    (Except.ok (.str "ROOT") : Except Err PyVal) ≠
      .ok (.str (NameSpace.formatStr
        (.mk true "yaml" [("key", .str "CHILD"), ("x", .str "{key}")])
        "{key}")) := by
  refine ⟨rfl, rfl, fun h => ?_⟩
  have h1 := Except.ok.inj h
  have h2 := PyVal.str.inj h1
  revert h2
  decide

/-- **C9, amended.**  `format_self` formats every string/list leaf of the
flattened view against the view of each node from the root downwards (the
root's view first, as witnessed by the `"ROOT"` outcome), in a single pass
and without any cross-pass fixed point: in `{b: "{c}", c: "{b}"}` one call
leaves both entries equal to the literal placeholder text `"{b}"` — the
value `"{c}"` of `b` was replaced by `c`'s value `"{b}"`, which itself still
contains an unresolved placeholder. -/
theorem claim9_amended :
    (do
      let n ← NameSpace.mkNS emptyFS 30
        (.dict [("key", .str "ROOT"),
                ("child", .dict [("key", .str "CHILD"), ("x", .str "{key}")])])
        true "yaml"
      let r ← NameSpace.formatSelf emptyFS 30 n
      r.getPath ["child", "x"]) = .ok (.str "ROOT") ∧
    (do
      let n ← NameSpace.mkNS emptyFS 30
        (.dict [("b", .str "{c}"), ("c", .str "{b}")]) true "yaml"
      NameSpace.formatSelf emptyFS 30 n) =
      .ok (.mk true "yaml" [("b", .str "{b}"), ("c", .str "{b}")]) :=
  ⟨rfl, rfl⟩

/-! ### Claim C10 — bare path to a missing file -/

/-- **C10.**  For a bare filesystem path (no `@`) that names no existing
file, `_load_config_file` falls through and returns `None` (`.ok none`), and
the subsequent `update` fails at `loaded_config.items()` with a generic
`AttributeError` (`noAttribute "items"`), which is none of the spec's
taxonomy errors (`ConfigNotFoundError`, `InvalidConfigError`, ...). -/
theorem claim10_missing_file :
    loadConfigFile emptyFS "missing.yml" = .ok none ∧
    NameSpace.update emptyFS 5 (.mk true "yaml" []) (.str "missing.yml") =
      .error (.noAttribute "items") ∧
    (∀ r p, (Err.noAttribute "items") ≠ .configNotFound r p) ∧
    (∀ s, (Err.noAttribute "items") ≠ .frozen s) ∧
    (Err.noAttribute "items") ≠ .notADictionary :=
  ⟨rfl, rfl, fun _ _ h => Err.noConfusion h, fun _ h => Err.noConfusion h,
    fun h => Err.noConfusion h⟩

/-! ### Claim C2 — sub-config delegation -/

/-- **C2.**  In `_load_subconfig`, once the local mapping `value` carries the
marker key (hypotheses `hN`/`hmark`/`hr`) and the external reference loads to
`S` (`hS`): when `S`'s top-level keys include the requested `name` and that
child is a namespace, the resolved node is exactly that external child with
every non-marker pair of `value` applied on top through `update` (so local
values take precedence); when `S` has two or more top-level keys and none
matches `name`, resolution fails with the ambiguous-sub-config error. -/
theorem claim2_delegation (fs : FS) (f : Nat) (ns : NameSpace) (name : String)
    (value : List (String × PyVal)) (N S : NameSpace) (r : PyVal)
    (hN : NameSpace.mkNS fs f (.dict value) ns.modifiable ns.subKey = .ok N)
    (hmark : ns.subKey ∈ N.keys)
    (hr : lookupA N.entries ns.subKey = some r)
    (hS : NameSpace.mkNS fs f r ns.modifiable ns.subKey = .ok S) :
    (∀ base, name ∈ S.keys → lookupA S.entries name = some (.ns base) →
        loadSubconfig fs (f + 1) ns name value =
          NameSpace.update fs f base
            (.dict (value.filter (fun p => p.1 ≠ ns.subKey)))) ∧
    (name ∉ S.keys → 2 ≤ S.keys.length →
        loadSubconfig fs (f + 1) ns name value =
          .error (.ambiguousSubConfig name)) := by
  constructor
  · intro base hmem hlook
    simp only [loadSubconfig, hN, Bind.bind, Except.bind, hmark, if_true, hr, hS,
      hmem, hlook]
  · intro hmem hlen
    have h1 : ¬ S.keys.length = 1 := by omega
    simp only [loadSubconfig, hN, Bind.bind, Except.bind, hmark, if_true, hr, hS,
      hmem, h1, if_false]

/-- **C2, witness.**  The claim's own example: external `sub.yml` defines
`{x: {p: 1}, y: {q: 2}}`; a local mapping `{yaml: "sub.yml", z: 5}` under
the key `x` resolves to the external `x` node plus `z = 5`, while the same
mapping under `w` fails with the ambiguous-sub-config error. -/
theorem claim2_delegation_witness :
    loadSubconfig subFS 41 (.mk true "yaml" []) "x"
        [("yaml", .str "sub.yml"), ("z", .int 5)] =
      .ok (.mk true "yaml" [("p", .int 1), ("z", .int 5)]) ∧
    loadSubconfig subFS 41 (.mk true "yaml" []) "w"
        [("yaml", .str "sub.yml"), ("z", .int 5)] =
      .error (.ambiguousSubConfig "w") := by
  constructor
  · have h := (claim2_delegation subFS 40 (.mk true "yaml" []) "x"
      [("yaml", .str "sub.yml"), ("z", .int 5)]
      (.mk true "yaml" [("yaml", .str "sub.yml"), ("z", .int 5)])
      (.mk true "yaml"
        [("x", .ns (.mk true "yaml" [("p", .int 1)])),
         ("y", .ns (.mk true "yaml" [("q", .int 2)]))])
      (.str "sub.yml") rfl (by decide) rfl rfl).1
      (.mk true "yaml" [("p", .int 1)]) (by decide) rfl
    exact h.trans rfl
  · exact ((claim2_delegation subFS 40 (.mk true "yaml" []) "w"
      [("yaml", .str "sub.yml"), ("z", .int 5)]
      (.mk true "yaml" [("yaml", .str "sub.yml"), ("z", .int 5)])
      (.mk true "yaml"
        [("x", .ns (.mk true "yaml" [("p", .int 1)])),
         ("y", .ns (.mk true "yaml" [("q", .int 2)]))])
      (.str "sub.yml") rfl (by decide) rfl rfl).2 (by decide) (by decide))

/-! ### Lemmas about `freeze`/`unfreeze` -/

theorem lookupA_freezeEntries (es : List (String × PyVal)) (k : String) :
    lookupA (freezeEntries es) k = (lookupA es k).map freezeVal := by
  induction es with
  | nil => simp [freezeEntries, lookupA]
  | cons e rest ih =>
    obtain ⟨k1, v1⟩ := e
    rw [show freezeEntries ((k1, v1) :: rest) = (k1, freezeVal v1) :: freezeEntries rest
      from by cases v1 <;> simp [freezeEntries, freezeVal]]
    simp only [lookupA]
    by_cases h : k1 = k
    · simp [h]
    · simp [h, ih]

theorem lookupA_unfreezeEntries (es : List (String × PyVal)) (k : String) :
    lookupA (unfreezeEntries es) k = (lookupA es k).map unfreezeVal := by
  induction es with
  | nil => simp [unfreezeEntries, lookupA]
  | cons e rest ih =>
    obtain ⟨k1, v1⟩ := e
    rw [show unfreezeEntries ((k1, v1) :: rest) = (k1, unfreezeVal v1) :: unfreezeEntries rest
      from by cases v1 <;> simp [unfreezeEntries, unfreezeVal]]
    simp only [lookupA]
    by_cases h : k1 = k
    · simp [h]
    · simp [h, ih]

theorem freeze_entries (ns : NameSpace) :
    (ns.freeze).entries = freezeEntries ns.entries := by
  cases ns; rfl

theorem freeze_modifiable (ns : NameSpace) : (ns.freeze).modifiable = false := by
  cases ns; rfl

theorem unfreeze_entries (ns : NameSpace) :
    (ns.unfreeze).entries = unfreezeEntries ns.entries := by
  cases ns; rfl

theorem unfreeze_modifiable (ns : NameSpace) : (ns.unfreeze).modifiable = true := by
  cases ns; rfl

/-! ### Claim C8 — freeze/unfreeze do not traverse sequences -/

/-- **C8.**  `freeze` and `unfreeze` walk `vars(self).values()` and recurse
only into values that are themselves `NameSpace` instances.  A list entry is
left behind verbatim — the *same* list `xs` — so a namespace element of a
sequence entry keeps its `_modifiable` flag; after freezing the parent it is
still modifiable and still accepts a write, even though the parent itself is
frozen. -/
theorem claim8_freeze_skips_sequences (fs : FS) (f : Nat) (ns : NameSpace)
    (k : String) (xs : List PyVal) (i : Nat) (m : NameSpace) (k2 : String)
    (s : String)
    (hk : lookupA ns.entries k = some (.list xs))
    (_hi : xs.get? i = some (.ns m))
    (hm : m.modifiable = true) :
    lookupA (ns.freeze).entries k = some (.list xs) ∧
    lookupA (ns.unfreeze).entries k = some (.list xs) ∧
    (ns.freeze).modifiable = false ∧
    ∃ m2, NameSpace.setItem fs f m k2 (.str s) = .ok m2 := by
  refine ⟨?_, ?_, freeze_modifiable ns, ?_⟩
  · rw [freeze_entries, lookupA_freezeEntries, hk]
    rfl
  · rw [unfreeze_entries, lookupA_unfreezeEntries, hk]
    rfl
  · refine ⟨.mk m.modifiable m.subKey (assign m.entries k2 (.str s)), ?_⟩
    simp [NameSpace.setItem, hm]

/-- **C8, witness.**  A node holding the sequence `[NameSpace {a: 1}]`:
after `freeze` the node itself is frozen but the namespace inside the
sequence is unchanged and still accepts `m["w"] = "v"`. -/
theorem claim8_freeze_skips_sequences_witness :
    lookupA ((NameSpace.mk true "yaml"
        [("lst", .list [.ns (.mk true "yaml" [("a", .int 1)])])]).freeze).entries
      "lst" = some (.list [.ns (.mk true "yaml" [("a", .int 1)])]) ∧
    ((NameSpace.mk true "yaml"
        [("lst", .list [.ns (.mk true "yaml" [("a", .int 1)])])]).freeze).modifiable
      = false ∧
    ∃ m2, NameSpace.setItem emptyFS 3 (.mk true "yaml" [("a", .int 1)]) "w"
        (.str "v") = .ok m2 := by
  have h := claim8_freeze_skips_sequences emptyFS 3
    (.mk true "yaml" [("lst", .list [.ns (.mk true "yaml" [("a", .int 1)])])])
    "lst" [.ns (.mk true "yaml" [("a", .int 1)])] 0
    (.mk true "yaml" [("a", .int 1)]) "w" "v" rfl rfl rfl
  exact ⟨h.1, h.2.2.1, h.2.2.2⟩

mutual

theorem freeze_freeze (ns : NameSpace) : ns.freeze.freeze = ns.freeze := by
  cases ns with
  | mk m k es =>
    simp only [NameSpace.freeze]
    rw [freezeEntries_freezeEntries es]

theorem freezeEntries_freezeEntries (es : List (String × PyVal)) :
    freezeEntries (freezeEntries es) = freezeEntries es := by
  match es with
  | [] => rfl
  | (k, v) :: rest =>
    simp only [freezeEntries]
    rw [freezeVal_freezeVal v, freezeEntries_freezeEntries rest]

theorem freezeVal_freezeVal (v : PyVal) : freezeVal (freezeVal v) = freezeVal v := by
  match v with
  | .ns n =>
    simp only [freezeVal]
    rw [freeze_freeze n]
  | .str s => rfl
  | .int n => rfl
  | .bool b => rfl
  | .null => rfl
  | .list xs => rfl
  | .dict es => rfl

end

mutual

theorem unfreeze_unfreeze (ns : NameSpace) : ns.unfreeze.unfreeze = ns.unfreeze := by
  cases ns with
  | mk m k es =>
    simp only [NameSpace.unfreeze]
    rw [unfreezeEntries_unfreezeEntries es]

theorem unfreezeEntries_unfreezeEntries (es : List (String × PyVal)) :
    unfreezeEntries (unfreezeEntries es) = unfreezeEntries es := by
  match es with
  | [] => rfl
  | (k, v) :: rest =>
    simp only [unfreezeEntries]
    rw [unfreezeVal_unfreezeVal v, unfreezeEntries_unfreezeEntries rest]

theorem unfreezeVal_unfreezeVal (v : PyVal) :
    unfreezeVal (unfreezeVal v) = unfreezeVal v := by
  match v with
  | .ns n =>
    simp only [unfreezeVal]
    rw [unfreeze_unfreeze n]
  | .str s => rfl
  | .int n => rfl
  | .bool b => rfl
  | .null => rfl
  | .list xs => rfl
  | .dict es => rfl

end

theorem NSIn_freeze {d x : NameSpace} (h : NSIn d x) :
    ∀ ns : NameSpace, x = ns.freeze → ∃ d0 : NameSpace, d = d0.freeze := by
  induction h with
  | refl => exact fun ns hx => ⟨ns, hx⟩
  | child k par hlook hin ih =>
    intro ns hx
    subst hx
    rw [freeze_entries, lookupA_freezeEntries] at hlook
    match hv : lookupA ns.entries k with
    | some (.ns c0) =>
      rw [hv] at hlook
      simp only [Option.map, freezeVal] at hlook
      have hc := PyVal.ns.inj (Option.some.inj hlook)
      exact ih c0 hc.symm
    | some (.str s) => rw [hv] at hlook; simp [Option.map, freezeVal] at hlook
    | some (.int n) => rw [hv] at hlook; simp [Option.map, freezeVal] at hlook
    | some (.bool b) => rw [hv] at hlook; simp [Option.map, freezeVal] at hlook
    | some .null => rw [hv] at hlook; simp [Option.map, freezeVal] at hlook
    | some (.list xs) => rw [hv] at hlook; simp [Option.map, freezeVal] at hlook
    | some (.dict es) => rw [hv] at hlook; simp [Option.map, freezeVal] at hlook
    | none => rw [hv] at hlook; simp [Option.map] at hlook

theorem NSIn_unfreeze {d x : NameSpace} (h : NSIn d x) :
    ∀ ns : NameSpace, x = ns.unfreeze → ∃ d0 : NameSpace, d = d0.unfreeze := by
  induction h with
  | refl => exact fun ns hx => ⟨ns, hx⟩
  | child k par hlook hin ih =>
    intro ns hx
    subst hx
    rw [unfreeze_entries, lookupA_unfreezeEntries] at hlook
    match hv : lookupA ns.entries k with
    | some (.ns c0) =>
      rw [hv] at hlook
      simp only [Option.map, unfreezeVal] at hlook
      have hc := PyVal.ns.inj (Option.some.inj hlook)
      exact ih c0 hc.symm
    | some (.str s) => rw [hv] at hlook; simp [Option.map, unfreezeVal] at hlook
    | some (.int n) => rw [hv] at hlook; simp [Option.map, unfreezeVal] at hlook
    | some (.bool b) => rw [hv] at hlook; simp [Option.map, unfreezeVal] at hlook
    | some .null => rw [hv] at hlook; simp [Option.map, unfreezeVal] at hlook
    | some (.list xs) => rw [hv] at hlook; simp [Option.map, unfreezeVal] at hlook
    | some (.dict es) => rw [hv] at hlook; simp [Option.map, unfreezeVal] at hlook
    | none => rw [hv] at hlook; simp [Option.map] at hlook

/-! ### Claim C4 — the freeze/unfreeze contract -/

/-- **C4.**  After `freeze()`, on the node itself and on every descendant
reached by the freeze propagation (`NSIn`), every add/overwrite via
`__setitem__` or `set`, and every `delete`, raises the frozen-namespace
`AttributeError`; `unfreeze()` restores `_modifiable = True` on every such
node, after which writes succeed again; and both operations are idempotent. -/
theorem claim4_freeze_unfreeze_contract (fs : FS) (f : Nat) (ns : NameSpace) :
    (∀ d, NSIn d ns.freeze → ∀ k v key,
      (∃ m, NameSpace.setItem fs f d k v = .error (.frozen m)) ∧
      (∃ m, NameSpace.set fs (f + 1) d k v = .error (.frozen m)) ∧
      (∃ m, NameSpace.delete (f + 1) d key = .error (.frozen m))) ∧
    ns.freeze.freeze = ns.freeze ∧
    ns.unfreeze.unfreeze = ns.unfreeze ∧
    (∀ d, NSIn d ns.unfreeze → d.modifiable = true ∧
      ∀ k (str : String), ∃ d2,
        NameSpace.setItem fs f d k (.str str) = .ok d2) := by
  refine ⟨?_, freeze_freeze ns, unfreeze_unfreeze ns, ?_⟩
  · intro d hd k v key
    obtain ⟨d0, hd0⟩ := NSIn_freeze hd ns rfl
    have hmod : d.modifiable = false := hd0 ▸ freeze_modifiable d0
    refine ⟨⟨"You are trying to set key " ++ k ++ " in a frozen namespace", ?_⟩,
      ⟨"You are trying to overwrite key " ++ k ++ " in a frozen namespace", ?_⟩,
      ⟨"You are trying to delete key " ++ key ++ " from a frozen namespace", ?_⟩⟩
    · simp [NameSpace.setItem, hmod]
    · simp [NameSpace.set, hmod]
    · simp [NameSpace.delete, hmod]
  · intro d hd
    obtain ⟨d0, hd0⟩ := NSIn_unfreeze hd ns rfl
    have hmod : d.modifiable = true := hd0 ▸ unfreeze_modifiable d0
    refine ⟨hmod, fun k str =>
      ⟨.mk d.modifiable d.subKey (assign d.entries k (.str str)), ?_⟩⟩
    simp [NameSpace.setItem, hmod]

/-- **C4, witness.**  For the tree `{a: {}}`: after `freeze` the child node
is reached by the propagation and a write/overwrite/delete on it raises the
frozen error; `freeze`/`unfreeze` are idempotent on the tree; after
`unfreeze` the child is modifiable and a write succeeds. -/
theorem claim4_freeze_unfreeze_contract_witness :
    (∃ m, NameSpace.setItem emptyFS 3 (.mk false "yaml" []) "k" (.int 0) =
      .error (.frozen m)) ∧
    (∃ m, NameSpace.set emptyFS 4 (.mk false "yaml" []) "k" (.int 0) =
      .error (.frozen m)) ∧
    (∃ m, NameSpace.delete 4 (.mk false "yaml" []) "k" =
      .error (.frozen m)) ∧
    (NameSpace.mk true "yaml"
        [("a", .ns (.mk true "yaml" []))]).freeze.freeze =
      (NameSpace.mk true "yaml" [("a", .ns (.mk true "yaml" []))]).freeze ∧
    (NameSpace.mk true "yaml"
        [("a", .ns (.mk true "yaml" []))]).unfreeze.unfreeze =
      (NameSpace.mk true "yaml" [("a", .ns (.mk true "yaml" []))]).unfreeze ∧
    (NameSpace.mk true "yaml" []).modifiable = true ∧
    (∃ d2, NameSpace.setItem emptyFS 3 (.mk true "yaml" []) "k" (.str "v") =
      .ok d2) := by
  have h := claim4_freeze_unfreeze_contract emptyFS 3
    (.mk true "yaml" [("a", .ns (.mk true "yaml" []))])
  have hfrozen := h.1 (.mk false "yaml" [])
    (NSIn.child "a" _ rfl (NSIn.refl _)) "k" (.int 0) "k"
  have hthaw := h.2.2.2 (.mk true "yaml" [])
    (NSIn.child "a" _ rfl (NSIn.refl _))
  exact ⟨hfrozen.1, hfrozen.2.1, hfrozen.2.2, h.2.1, h.2.2.1, hthaw.1,
    hthaw.2 "k" "v"⟩

/-! ### Lemmas about `splitFirst` and `pySplit` -/

theorem splitCharFirst_length {c : Char} :
    ∀ {l a b : List Char}, splitCharFirst c l = some (a, b) →
      a.length + 1 + b.length = l.length := by
  intro l
  induction l with
  | nil => intro a b h; simp [splitCharFirst] at h
  | cons d rest ih =>
    intro a b h
    simp only [splitCharFirst] at h
    by_cases hd : d = c
    · simp [hd] at h
      obtain ⟨ha, hb⟩ := h
      subst ha; subst hb; simp; omega
    · simp [hd] at h
      match hrec : splitCharFirst c rest with
      | some (a', b') =>
        rw [hrec] at h
        simp at h
        obtain ⟨ha, hb⟩ := h
        subst ha; subst hb
        have := ih hrec
        simp [List.length_cons]
        omega
      | none => rw [hrec] at h; simp at h

theorem splitFirst_data_length {c : Char} {s a b : String}
    (h : splitFirst c s = some (a, b)) :
    a.data.length + 1 + b.data.length = s.data.length := by
  unfold splitFirst at h
  match hm : splitCharFirst c s.data with
  | some (x, y) =>
    rw [hm] at h
    simp at h
    obtain ⟨ha, hb⟩ := h
    have := splitCharFirst_length hm
    subst ha; subst hb
    simpa using this
  | none => rw [hm] at h; simp at h

theorem pySplitF_succ_none {c : Char} {s : String} (f : Nat)
    (h : splitFirst c s = none) : pySplitF c (f + 1) s = [s] := by
  simp only [pySplitF, h]

theorem pySplitF_succ_some {c : Char} {s a b : String} (f : Nat)
    (h : splitFirst c s = some (a, b)) :
    pySplitF c (f + 1) s = a :: pySplitF c f b := by
  simp only [pySplitF, h]

theorem pySplitF_congr (c : Char) :
    ∀ f g s, s.data.length < f → s.data.length < g →
      pySplitF c f s = pySplitF c g s := by
  intro f
  induction f with
  | zero => intro g s hf; omega
  | succ f ih =>
    intro g s hf hg
    match g, hg with
    | g + 1, hg =>
      match hs : splitFirst c s with
      | none => rw [pySplitF_succ_none f hs, pySplitF_succ_none g hs]
      | some (a, b) =>
        have hlen := splitFirst_data_length hs
        rw [pySplitF_succ_some f hs, pySplitF_succ_some g hs,
          ih g b (by omega) (by omega)]

theorem pySplit_none {c : Char} {s : String} (h : splitFirst c s = none) :
    pySplit c s = [s] := by
  unfold pySplit
  exact pySplitF_succ_none _ h

theorem pySplit_cons {c : Char} {s a b : String}
    (h : splitFirst c s = some (a, b)) :
    pySplit c s = a :: pySplit c b := by
  have hlen := splitFirst_data_length h
  unfold pySplit
  rw [pySplitF_succ_some _ h]
  exact congrArg (a :: ·) (pySplitF_congr c s.data.length (b.data.length + 1) b
    (by omega) (by omega))

theorem pySplit_ne_nil (c : Char) (s : String) : pySplit c s ≠ [] := by
  unfold pySplit
  match hs : splitFirst c s with
  | none => rw [pySplitF_succ_none _ hs]; simp
  | some (a, b) => rw [pySplitF_succ_some _ hs]; simp

/-! ### Claim C3 — dotted set / dotted get round trip -/

/-- **C3, amended.**  Whenever a dotted `set` succeeds (in particular when
every intermediate node along the path is an existing modifiable namespace
or absent, absent ones being auto-vivified through attribute read) and the
value is not a mapping, the chained read along the same path
(`key.split(".")`) returns exactly the value written.  (A mapping value is
converted by `__setitem__` into a namespace node, so it is not returned
identically — see the counterexample.) -/
theorem claim3_set_get_roundtrip (fs : FS) :
    ∀ (f : Nat) (ns : NameSpace) (key : String) (v : PyVal) (ns' : NameSpace),
      (∀ d, v ≠ .dict d) →
      NameSpace.set fs f ns key v = .ok ns' →
      ns'.getPath (pySplit '.' key) = .ok v := by
  intro f
  induction f with
  | zero => intro ns key v ns' hv hset; simp [NameSpace.set] at hset
  | succ f ih =>
    intro ns key v ns' hv hset
    simp only [NameSpace.set] at hset
    by_cases hmod : ns.modifiable = false
    · simp [hmod] at hset
    · simp only [hmod, if_false] at hset
      match hsplit : splitFirst '.' key with
      | none =>
        rw [hsplit] at hset
        rw [pySplit_none hsplit]
        match v, hv with
        | .str s, _ =>
          simp only [NameSpace.setItem, hmod, if_false] at hset
          cases hset
          simp [NameSpace.getPath, NameSpace.getItem, NameSpace.entries,
            lookupA_assign_self]
        | .int n, _ =>
          simp only [NameSpace.setItem, hmod, if_false] at hset
          cases hset
          simp [NameSpace.getPath, NameSpace.getItem, NameSpace.entries,
            lookupA_assign_self]
        | .bool b, _ =>
          simp only [NameSpace.setItem, hmod, if_false] at hset
          cases hset
          simp [NameSpace.getPath, NameSpace.getItem, NameSpace.entries,
            lookupA_assign_self]
        | .null, _ =>
          simp only [NameSpace.setItem, hmod, if_false] at hset
          cases hset
          simp [NameSpace.getPath, NameSpace.getItem, NameSpace.entries,
            lookupA_assign_self]
        | .list xs, _ =>
          simp only [NameSpace.setItem, hmod, if_false] at hset
          cases hset
          simp [NameSpace.getPath, NameSpace.getItem, NameSpace.entries,
            lookupA_assign_self]
        | .ns n, _ =>
          simp only [NameSpace.setItem, hmod, if_false] at hset
          cases hset
          simp [NameSpace.getPath, NameSpace.getItem, NameSpace.entries,
            lookupA_assign_self]
        | .dict d, hv => exact absurd rfl (hv d)
      | some (first, rest) =>
        rw [hsplit] at hset
        rw [pySplit_cons hsplit]
        simp only [NameSpace.getattrOp, Bind.bind, Except.bind] at hset
        match hlook : lookupA ns.entries first with
        | some (.ns c) =>
          rw [hlook] at hset
          simp only at hset
          match hrec : NameSpace.set fs f c rest v with
          | .error e => rw [hrec] at hset; simp at hset
          | .ok c' =>
            rw [hrec] at hset
            simp only at hset
            cases hset
            have hrest := ih c rest v c' hv hrec
            match hps : pySplit '.' rest, pySplit_ne_nil '.' rest with
            | r0 :: r', _ =>
              rw [hps] at hrest
              simp only [NameSpace.getPath, NameSpace.entries,
                lookupA_assign_self]
              exact hrest
        | some (.str s) => rw [hlook] at hset; simp at hset
        | some (.int n) => rw [hlook] at hset; simp at hset
        | some (.bool b) => rw [hlook] at hset; simp at hset
        | some .null => rw [hlook] at hset; simp at hset
        | some (.list xs) => rw [hlook] at hset; simp at hset
        | some (.dict d) => rw [hlook] at hset; simp at hset
        | none =>
          rw [hlook] at hset
          by_cases h1 : first = "_modifiable"
          · simp [h1] at hset
          · by_cases h2 : first = "_sub_config_key"
            · simp [h1, h2] at hset
            · simp only [h1, h2, hmod, Bool.true_eq_false, if_false] at hset
              match hrec : NameSpace.set fs f (.mk true ns.subKey []) rest v with
              | .error e => rw [hrec] at hset; simp at hset
              | .ok c' =>
                rw [hrec] at hset
                simp only at hset
                cases hset
                have hrest := ih _ rest v c' hv hrec
                match hps : pySplit '.' rest, pySplit_ne_nil '.' rest with
                | r0 :: r', _ =>
                  rw [hps] at hrest
                  simp only [NameSpace.getPath, NameSpace.entries,
                    lookupA_assign_self]
                  exact hrest

/-- **C3, counterexample.**  The claim quantifies over *every* modifiable
namespace and *every* value.  (1) On the modifiable namespace `{a: 5}` the
dotted set of `a.b` fails with an `AttributeError` (`int` has no `.set`), so
no value can be read back; (2) for a mapping value, `set` stores the
namespace built from it, and the dotted get returns that namespace, not the
mapping that was written. -/
theorem claim3_counterexample :
    NameSpace.set emptyFS 9 (.mk true "yaml" [("a", .int 5)]) "a.b" (.int 1) =
      .error (.noAttribute "set") ∧
    (do
      let n ← NameSpace.set emptyFS 9 (.mk true "yaml" []) "a"
        (.dict [("b", .int 1)])
      n.getPath ["a"]) = .ok (.ns (.mk true "yaml" [("b", .int 1)])) ∧
    (do
      let n ← NameSpace.set emptyFS 9 (.mk true "yaml" []) "a"
        (.dict [("b", .int 1)])
      n.getPath ["a"]) ≠ .ok (.dict [("b", .int 1)]) := by
  refine ⟨rfl, rfl, fun h => ?_⟩
  have he : (do
      let n ← NameSpace.set emptyFS 9 (.mk true "yaml" []) "a"
        (.dict [("b", .int 1)])
      n.getPath ["a"]) = (.ok (.ns (.mk true "yaml" [("b", .int 1)])) :
        Except Err PyVal) := rfl
  exact PyVal.noConfusion (Except.ok.inj (he.symm.trans h))

/-- **C3, witness.**  A depth-3 write on a fresh modifiable namespace:
`set("a.b.c", "w")` succeeds, auto-vivifying `a` and `a.b`, and the chained
read of `a.b.c` returns `"w"`. -/
theorem claim3_set_get_roundtrip_witness :
    NameSpace.set emptyFS 9 (.mk true "yaml" []) "a.b.c" (.str "w") =
      .ok (.mk true "yaml" [("a", .ns (.mk true "yaml"
        [("b", .ns (.mk true "yaml" [("c", .str "w")]))]))]) ∧
    (NameSpace.mk true "yaml" [("a", .ns (.mk true "yaml"
        [("b", .ns (.mk true "yaml" [("c", .str "w")]))]))]).getPath
      (pySplit '.' "a.b.c") = .ok (.str "w") :=
  ⟨rfl,
    claim3_set_get_roundtrip emptyFS 9 (.mk true "yaml" []) "a.b.c"
      (.str "w")
      (.mk true "yaml" [("a", .ns (.mk true "yaml"
        [("b", .ns (.mk true "yaml" [("c", .str "w")]))]))])
      (fun _ h => PyVal.noConfusion h) rfl⟩

/-! ### Lemmas for the no-dotted-keys invariant (claim C6) -/

theorem splitCharFirst_not_mem {c : Char} :
    ∀ {l : List Char}, c ∉ l → splitCharFirst c l = none := by
  intro l
  induction l with
  | nil => intro _; rfl
  | cons d rest ih =>
    intro h
    simp only [List.mem_cons, not_or] at h
    simp only [splitCharFirst]
    rw [if_neg (fun hd => h.1 hd.symm), ih h.2]

theorem splitCharFirst_before_not_mem {c : Char} :
    ∀ {l a b : List Char}, splitCharFirst c l = some (a, b) → c ∉ a := by
  intro l
  induction l with
  | nil => intro a b h; simp [splitCharFirst] at h
  | cons d rest ih =>
    intro a b h
    simp only [splitCharFirst] at h
    by_cases hd : d = c
    · simp only [hd, if_true] at h
      cases h
      simp
    · rw [if_neg hd] at h
      match hrec : splitCharFirst c rest with
      | some (a', b') =>
        rw [hrec] at h
        cases h
        intro hmem
        rcases List.mem_cons.mp hmem with h1 | h1
        · exact hd h1.symm
        · exact ih hrec h1
      | none => rw [hrec] at h; cases h

theorem hasDot_first {s a b : String} (h : splitFirst '.' s = some (a, b)) :
    hasDot a = false := by
  unfold splitFirst at h
  match hm : splitCharFirst '.' s.data with
  | some (x, y) =>
    rw [hm] at h
    simp only [Option.some.injEq, Prod.mk.injEq] at h
    obtain ⟨ha, _⟩ := h
    have hnot := splitCharFirst_before_not_mem hm
    simp only [hasDot, splitFirst, ← ha]
    rw [splitCharFirst_not_mem hnot]
    rfl
  | none => rw [hm] at h; cases h

theorem hasDot_of_none {s : String} (h : splitFirst '.' s = none) :
    hasDot s = false := by
  simp [hasDot, h]

theorem noDotEntries_lookupA :
    ∀ {es : List (String × PyVal)} {k : String} {v : PyVal},
      noDotEntries es = true → lookupA es k = some v → noDotVal v = true := by
  intro es
  induction es with
  | nil => intro k v _ h; simp [lookupA] at h
  | cons e rest ih =>
    intro k v hnd h
    obtain ⟨k1, v1⟩ := e
    simp only [noDotEntries, Bool.and_eq_true] at hnd
    simp only [lookupA] at h
    by_cases hk : k1 = k
    · rw [if_pos hk] at h
      cases h
      exact hnd.1.2
    · rw [if_neg hk] at h
      exact ih hnd.2 h

theorem noDotEntries_assign {es : List (String × PyVal)} {k : String}
    {v : PyVal} (hes : noDotEntries es = true) (hk : hasDot k = false)
    (hv : noDotVal v = true) : noDotEntries (assign es k v) = true := by
  unfold assign
  by_cases ha : (es.any (fun p => p.1 = k)) = true
  · rw [if_pos ha]
    clear ha
    induction es with
    | nil => simp [noDotEntries]
    | cons e rest ih =>
      obtain ⟨k1, v1⟩ := e
      simp only [noDotEntries, Bool.and_eq_true] at hes
      simp only [List.map_cons]
      by_cases he : k1 = k
      · rw [if_pos (by simpa using he)]
        simp only [noDotEntries, Bool.and_eq_true]
        exact ⟨⟨by simp [hk], hv⟩, ih hes.2⟩
      · rw [if_neg (by simpa using he)]
        simp only [noDotEntries, Bool.and_eq_true]
        exact ⟨hes.1, ih hes.2⟩
  · rw [if_neg ha]
    clear ha
    induction es with
    | nil => simp [noDotEntries, hk, hv]
    | cons e rest ih =>
      obtain ⟨k1, v1⟩ := e
      simp only [noDotEntries, Bool.and_eq_true] at hes
      simp only [List.cons_append, noDotEntries, Bool.and_eq_true]
      exact ⟨hes.1, ih hes.2⟩

theorem noDotEntries_pyDictUpdate :
    ∀ {new es : List (String × PyVal)}, noDotEntries es = true →
      noDotEntries new = true → noDotEntries (pyDictUpdate es new) = true := by
  intro new
  induction new with
  | nil => intro es hes _; simpa [pyDictUpdate] using hes
  | cons e rest ih =>
    intro es hes hnew
    obtain ⟨k, v⟩ := e
    simp only [noDotEntries, Bool.and_eq_true] at hnew
    simp only [pyDictUpdate]
    exact ih (noDotEntries_assign hes (by simpa using hnew.1.1) hnew.1.2) hnew.2

theorem noDotDict_filter {es : List (String × PyVal)}
    (p : String × PyVal → Bool) (h : noDotDict es = true) :
    noDotDict (es.filter p) = true := by
  induction es with
  | nil => simpa using h
  | cons e rest ih =>
    obtain ⟨k, v⟩ := e
    simp only [noDotDict, Bool.and_eq_true] at h
    simp only [List.filter]
    match p (k, v) with
    | true => simp only [noDotDict, Bool.and_eq_true]; exact ⟨h.1, ih h.2⟩
    | false => exact ih h.2

theorem loadConfigFile_files {fs : FS} {s : String} {v : PyVal}
    (h : loadConfigFile fs s = .ok (some v)) :
    ∃ p, fs.files p = some v := by
  unfold loadConfigFile at h
  match hsp : pySplit '@' s with
  | [s0] =>
    rw [hsp] at h
    exact ⟨pyStrip s0, Except.ok.inj h⟩
  | [pkg, res] =>
    rw [hsp] at h
    simp only at h
    match hf : ((fs.packageFiles (pyStrip pkg) (pathSuffix (pyStrip res))).filter
        (fun f => strEndsWith f (pyStrip res))) with
    | [] => rw [hf] at h; cases h
    | [c] => rw [hf] at h; exact ⟨c, Except.ok.inj h⟩
    | c1 :: c2 :: cs => rw [hf] at h; cases h
  | [] => rw [hsp] at h; cases h
  | a :: b :: c :: rest => rw [hsp] at h; cases h

theorem loadCfg_noDot {fs : FS} (hfs : fs.noDot) {cfg l : PyVal}
    (hcfg : noDotVal cfg = true) (h : loadCfg fs cfg = .ok (some l)) :
    noDotVal l = true := by
  match cfg with
  | .str s =>
    obtain ⟨p, hp⟩ := loadConfigFile_files h
    exact hfs p l hp
  | .dict d =>
    simp only [loadCfg] at h
    cases h
    exact hcfg
  | .int n => simp [loadCfg] at h
  | .bool b => simp [loadCfg] at h
  | .null => simp [loadCfg] at h
  | .list xs => simp [loadCfg] at h
  | .ns n => simp [loadCfg] at h

theorem noDotNS_entries (ns : NameSpace) :
    noDotNS ns = noDotEntries ns.entries := by
  cases ns; rfl

/-- The no-dotted-keys preservation pack over the loading cluster, one
conjunct per function, proved by one induction on the fuel (every recursive
call burns one unit, so each conjunct at `f + 1` only needs the pack at
`f`). -/
theorem noDot_pack (fs : FS) (hfs : fs.noDot) : ∀ f : Nat,
    (∀ ns cfg res, NameSpace.update fs f ns cfg = .ok res →
      noDotNS ns = true → noDotVal cfg = true → noDotNS res = true) ∧
    (∀ cfg mod K res, NameSpace.mkNS fs f cfg mod K = .ok res →
      noDotVal cfg = true → noDotNS res = true) ∧
    (∀ ns acc items res, buildLocal fs f ns acc items = .ok res →
      noDotEntries acc = true → noDotDict items = true →
      noDotEntries res = true) ∧
    (∀ ns name xs res, buildListElems fs f ns name xs = .ok res →
      noDotList xs = true → noDotList res = true) ∧
    (∀ ns name value res, loadSubconfig fs f ns name value = .ok res →
      noDotDict value = true → noDotNS res = true) := by
  intro f
  induction f with
  | zero =>
    refine ⟨?_, ?_, ?_, ?_, ?_⟩
    · intro ns cfg res h; simp [NameSpace.update] at h
    · intro cfg mod K res h; simp [NameSpace.mkNS] at h
    · intro ns acc items res h; simp [buildLocal] at h
    · intro ns name xs res h; simp [buildListElems] at h
    · intro ns name value res h; simp [loadSubconfig] at h
  | succ f ih =>
    obtain ⟨IHupd, IHmk, IHbl, IHble, IHls⟩ := ih
    refine ⟨?_, ?_, ?_, ?_, ?_⟩
    -- update
    · intro ns cfg res h hns hcfg
      simp only [NameSpace.update, Bind.bind, Except.bind] at h
      match hl : loadCfg fs cfg with
      | .error e => rw [hl] at h; cases h
      | .ok none => rw [hl] at h; cases h
      | .ok (some (.dict items)) =>
        rw [hl] at h
        simp only at h
        have hitems : noDotDict items = true := loadCfg_noDot hfs hcfg hl
        match hb : buildLocal fs f ns [] items with
        | .error e => rw [hb] at h; cases h
        | .ok localCfg =>
          rw [hb] at h
          simp only at h
          cases h
          rw [noDotNS_entries]
          exact noDotEntries_pyDictUpdate
            ((noDotNS_entries ns) ▸ hns)
            (IHbl ns [] items localCfg hb rfl hitems)
      | .ok (some (.str s)) => rw [hl] at h; cases h
      | .ok (some (.int n)) => rw [hl] at h; cases h
      | .ok (some (.bool b)) => rw [hl] at h; cases h
      | .ok (some .null) => rw [hl] at h; cases h
      | .ok (some (.list xs)) => rw [hl] at h; cases h
      | .ok (some (.ns n)) => rw [hl] at h; cases h
    -- mkNS
    · intro cfg mod K res h hcfg
      simp only [NameSpace.mkNS, Bind.bind, Except.bind] at h
      match hu : NameSpace.update fs f (.mk true K []) cfg with
      | .error e => rw [hu] at h; cases h
      | .ok n1 =>
        rw [hu] at h
        simp only at h
        cases h
        rw [noDotNS_entries]
        exact (noDotNS_entries n1) ▸ (IHupd _ _ _ hu rfl hcfg)
    -- buildLocal
    · intro ns acc items res h hacc hitems
      match items with
      | [] =>
        simp only [buildLocal] at h
        cases h
        exact hacc
      | (name, value) :: rest =>
        simp only [buildLocal, Bind.bind, Except.bind] at h
        simp only [noDotDict, Bool.and_eq_true] at hitems
        match hsp : splitFirst '.' name with
        | some (first, restKey) =>
          rw [hsp] at h
          simp only at h
          match hlk : lookupA acc first with
          | some (.ns c) =>
            rw [hlk] at h
            simp only at h
            match hupd : NameSpace.update fs f c (.dict [(restKey, value)]) with
            | .error e => rw [hupd] at h; cases h
            | .ok child' =>
              rw [hupd] at h
              simp only at h
              have hc' : noDotNS child' = true := by
                refine IHupd _ _ _ hupd (noDotEntries_lookupA hacc hlk) ?_
                simp only [noDotVal, noDotDict, Bool.and_eq_true]
                exact ⟨hitems.1, trivial⟩
              exact IHbl _ _ _ _ h
                (noDotEntries_assign hacc (hasDot_first hsp) hc') hitems.2
          | some (.str s) => rw [hlk] at h; cases h
          | some (.int n) => rw [hlk] at h; cases h
          | some (.bool b) => rw [hlk] at h; cases h
          | some .null => rw [hlk] at h; cases h
          | some (.list xs) => rw [hlk] at h; cases h
          | some (.dict d) => rw [hlk] at h; cases h
          | none =>
            rw [hlk] at h
            simp only at h
            match hmk : NameSpace.mkNS fs f (.dict []) ns.modifiable
                ns.subKey with
            | .error e => rw [hmk] at h; cases h
            | .ok child =>
              rw [hmk] at h
              simp only at h
              match hupd : NameSpace.update fs f child
                  (.dict [(restKey, value)]) with
              | .error e => rw [hupd] at h; cases h
              | .ok child' =>
                rw [hupd] at h
                simp only at h
                have hc' : noDotNS child' = true := by
                  refine IHupd _ _ _ hupd (IHmk _ _ _ _ hmk rfl) ?_
                  simp only [noDotVal, noDotDict, Bool.and_eq_true]
                  exact ⟨hitems.1, trivial⟩
                exact IHbl _ _ _ _ h
                  (noDotEntries_assign hacc (hasDot_first hsp) hc') hitems.2
        | none =>
          rw [hsp] at h
          simp only at h
          cases value with
          | dict d =>
            simp only at h
            match hls : loadSubconfig fs f ns name d with
            | .error e => rw [hls] at h; cases h
            | .ok sub =>
              rw [hls] at h
              simp only at h
              exact IHbl _ _ _ _ h
                (noDotEntries_assign hacc (hasDot_of_none hsp)
                  (IHls _ _ _ _ hls hitems.1))
                hitems.2
          | list xs =>
            simp only at h
            match hble : buildListElems fs f ns name xs with
            | .error e => rw [hble] at h; cases h
            | .ok xs' =>
              rw [hble] at h
              simp only at h
              exact IHbl _ _ _ _ h
                (noDotEntries_assign hacc (hasDot_of_none hsp)
                  (IHble _ _ _ _ hble hitems.1))
                hitems.2
          | str s =>
            simp only at h
            exact IHbl _ _ _ _ h
              (noDotEntries_assign hacc (hasDot_of_none hsp) hitems.1) hitems.2
          | int n =>
            simp only at h
            exact IHbl _ _ _ _ h
              (noDotEntries_assign hacc (hasDot_of_none hsp) hitems.1) hitems.2
          | bool b =>
            simp only at h
            exact IHbl _ _ _ _ h
              (noDotEntries_assign hacc (hasDot_of_none hsp) hitems.1) hitems.2
          | null =>
            simp only at h
            exact IHbl _ _ _ _ h
              (noDotEntries_assign hacc (hasDot_of_none hsp) hitems.1) hitems.2
          | ns n =>
            simp only at h
            exact IHbl _ _ _ _ h
              (noDotEntries_assign hacc (hasDot_of_none hsp) hitems.1) hitems.2
    -- buildListElems
    · intro ns name xs res h hxs
      match xs with
      | [] =>
        simp only [buildListElems] at h
        cases h
        exact hxs
      | x :: rest =>
        simp only [buildListElems, Bind.bind, Except.bind] at h
        simp only [noDotList, Bool.and_eq_true] at hxs
        have hrestStep : ∀ e rest', buildListElems fs f ns name rest = .ok rest' →
            noDotVal e = true → res = e :: rest' → noDotList res = true := by
          intro e rest' hrest he hres
          subst hres
          simp only [noDotList, Bool.and_eq_true]
          exact ⟨he, IHble _ _ _ _ hrest hxs.2⟩
        cases x with
        | dict d =>
          simp only at h
          match hls : loadSubconfig fs f ns name d with
          | .error e => rw [hls] at h; cases h
          | .ok sub =>
            rw [hls] at h
            simp only at h
            match hrest : buildListElems fs f ns name rest with
            | .error e => rw [hrest] at h; cases h
            | .ok rest' =>
              rw [hrest] at h
              simp only at h
              cases h
              exact hrestStep (.ns sub) _ hrest
                (show noDotNS sub = true from IHls _ _ _ _ hls hxs.1) rfl
        | str s =>
          simp only at h
          match hrest : buildListElems fs f ns name rest with
          | .error e => rw [hrest] at h; cases h
          | .ok rest' =>
            rw [hrest] at h; simp only at h; cases h
            exact hrestStep _ _ hrest hxs.1 rfl
        | int n =>
          simp only at h
          match hrest : buildListElems fs f ns name rest with
          | .error e => rw [hrest] at h; cases h
          | .ok rest' =>
            rw [hrest] at h; simp only at h; cases h
            exact hrestStep _ _ hrest hxs.1 rfl
        | bool b =>
          simp only at h
          match hrest : buildListElems fs f ns name rest with
          | .error e => rw [hrest] at h; cases h
          | .ok rest' =>
            rw [hrest] at h; simp only at h; cases h
            exact hrestStep _ _ hrest hxs.1 rfl
        | null =>
          simp only at h
          match hrest : buildListElems fs f ns name rest with
          | .error e => rw [hrest] at h; cases h
          | .ok rest' =>
            rw [hrest] at h; simp only at h; cases h
            exact hrestStep _ _ hrest hxs.1 rfl
        | list ys =>
          simp only at h
          match hrest : buildListElems fs f ns name rest with
          | .error e => rw [hrest] at h; cases h
          | .ok rest' =>
            rw [hrest] at h; simp only at h; cases h
            exact hrestStep _ _ hrest hxs.1 rfl
        | ns n =>
          simp only at h
          match hrest : buildListElems fs f ns name rest with
          | .error e => rw [hrest] at h; cases h
          | .ok rest' =>
            rw [hrest] at h; simp only at h; cases h
            exact hrestStep _ _ hrest hxs.1 rfl
    -- loadSubconfig
    · intro ns name value res h hval
      simp only [loadSubconfig, Bind.bind, Except.bind] at h
      match hmk : NameSpace.mkNS fs f (.dict value) ns.modifiable ns.subKey with
      | .error e => rw [hmk] at h; cases h
      | .ok N =>
        rw [hmk] at h
        simp only at h
        have hN : noDotNS N = true := IHmk _ _ _ _ hmk hval
        by_cases hm : ns.subKey ∈ N.keys
        · rw [if_pos hm] at h
          match hr : lookupA N.entries ns.subKey with
          | none => rw [hr] at h; cases h
          | some r =>
            rw [hr] at h
            simp only at h
            have hrnd : noDotVal r = true :=
              noDotEntries_lookupA ((noDotNS_entries N) ▸ hN) hr
            match hmk2 : NameSpace.mkNS fs f r ns.modifiable ns.subKey with
            | .error e => rw [hmk2] at h; cases h
            | .ok S =>
              rw [hmk2] at h
              simp only at h
              have hS : noDotNS S = true := IHmk _ _ _ _ hmk2 hrnd
              have hSe : noDotEntries S.entries = true :=
                (noDotNS_entries S) ▸ hS
              have fin : ∀ r2, noDotVal r2 = true →
                  (match r2 with
                    | PyVal.ns b =>
                      NameSpace.update fs f b
                        (PyVal.dict (value.filter (fun p => p.1 ≠ ns.subKey)))
                    | _ => Except.error (Err.noAttribute "update")) = .ok res →
                  noDotNS res = true := by
                intro r2 hr2 hh
                cases r2 with
                | ns base =>
                  exact IHupd _ _ _ hh hr2 (noDotDict_filter _ hval)
                | str s => cases hh
                | int n => cases hh
                | bool b => cases hh
                | null => cases hh
                | list xs => cases hh
                | dict d => cases hh
              by_cases hnm : name ∈ S.keys
              · rw [if_pos hnm] at h
                match hl2 : lookupA S.entries name with
                | none => rw [hl2] at h; cases h
                | some r3 =>
                  rw [hl2] at h
                  simp only at h
                  exact fin r3 (noDotEntries_lookupA hSe hl2) h
              · rw [if_neg hnm] at h
                by_cases hlen : S.keys.length = 1
                · rw [if_pos hlen] at h
                  match hl2 : lookupA S.entries (S.keys.headD "") with
                  | none => rw [hl2] at h; cases h
                  | some r3 =>
                    rw [hl2] at h
                    simp only at h
                    exact fin r3 (noDotEntries_lookupA hSe hl2) h
                · rw [if_neg hlen] at h
                  cases h
        · rw [if_neg hm] at h
          cases h
          exact hN

/-! ### Claim C6 — dotted keys are never stored (by `update`) -/

/-- **C6, counterexample.**  The claim quantifies over *every* namespace
tree and *every* input.  (1) `__setitem__` stores a dotted key literally
(`ns["a.b"] = 1` is the public API), and an `update` leaves that untouched
entry in place, so after `update` returns a stored key contains a period;
(2) an input mapping may carry an already-built namespace object as a value
(`update` stores it verbatim through its scalar branch — `clone()` relies
on exactly this), so a dotted key inside such an object also survives an
`update`. -/
theorem claim6_counterexample :
    NameSpace.setItem emptyFS 5 (.mk true "yaml" []) "a.b" (.int 1) =
      .ok (.mk true "yaml" [("a.b", .int 1)]) ∧
    NameSpace.update emptyFS 5 (.mk true "yaml" [("a.b", .int 1)])
        (.dict []) = .ok (.mk true "yaml" [("a.b", .int 1)]) ∧
    hasDot "a.b" = true ∧
    noDotNS (.mk true "yaml" [("a.b", .int 1)]) = false ∧
    NameSpace.update emptyFS 5 (.mk true "yaml" [])
        (.dict [("a", .ns (.mk true "yaml" [("x.y", .int 2)]))]) =
      .ok (.mk true "yaml" [("a", .ns (.mk true "yaml" [("x.y", .int 2)]))]) ∧
    noDotNS (.mk true "yaml"
        [("a", .ns (.mk true "yaml" [("x.y", .int 2)]))]) = false :=
  ⟨rfl, rfl, rfl, rfl, rfl, rfl⟩

/-- **C6, amended.**  `update` preserves and establishes the no-dotted-keys
invariant: for every tree whose stored keys (recursively, lists included)
contain no period, and every input whose embedded namespace objects satisfy
the same invariant (in particular every plain-data mapping, dotted input
keys allowed), over a file system whose parsed documents are plain data,
every key stored by a successful `update` — at every node it creates or
touches — is period-free: dotted input keys are decomposed into nested
nodes, never stored literally. -/
theorem claim6_no_dotted_keys (fs : FS) (hfs : fs.noDot) (f : Nat)
    (ns : NameSpace) (cfg : PyVal) (res : NameSpace)
    (hns : noDotNS ns = true) (hcfg : noDotVal cfg = true)
    (h : NameSpace.update fs f ns cfg = .ok res) :
    noDotNS res = true :=
  (noDot_pack fs hfs f).1 ns cfg res h hns hcfg

/-- **C6, witness.**  `update({"a.b.c": 7})` on a fresh root stores the
three-level decomposition and no stored key anywhere contains a period. -/
theorem claim6_no_dotted_keys_witness :
    NameSpace.update emptyFS 10 (.mk true "yaml" [])
        (.dict [("a.b.c", .int 7)]) =
      .ok (.mk true "yaml" [("a", .ns (.mk true "yaml"
        [("b", .ns (.mk true "yaml" [("c", .int 7)]))]))]) ∧
    noDotNS (.mk true "yaml" [("a", .ns (.mk true "yaml"
        [("b", .ns (.mk true "yaml" [("c", .int 7)]))]))]) = true :=
  ⟨rfl,
    claim6_no_dotted_keys emptyFS (fun p v h => by cases h) 10
      (.mk true "yaml" []) (.dict [("a.b.c", .int 7)]) _ rfl rfl rfl⟩

/-! ### Lemmas about plain configuration dictionaries (claims C5, C7) -/

theorem assign_not_mem {es : List (String × PyVal)} {k : String} (v : PyVal)
    (h : (es.any (fun p => p.1 = k)) = false) :
    assign es k v = es ++ [(k, v)] := by
  unfold assign
  rw [if_neg (by simp [h])]

theorem pyDictUpdate_append :
    ∀ {new es : List (String × PyVal)},
      (∀ k, k ∈ new.map Prod.fst → (es.any (fun p => p.1 = k)) = false) →
      (nodupKeys new) = true →
      pyDictUpdate es new = es ++ new := by
  intro new
  induction new with
  | nil => intro es _ _; simp [pyDictUpdate]
  | cons e rest ih =>
    intro es hdisj hnd
    obtain ⟨k, v⟩ := e
    simp only [nodupKeys, Bool.and_eq_true] at hnd
    simp only [pyDictUpdate]
    rw [assign_not_mem v (hdisj k (by simp))]
    rw [ih ?_ hnd.2]
    · simp
    · intro k2 hk2
      have hne : ¬ k2 = k := by
        intro hkk
        subst hkk
        have := hnd.1
        simp only [Bool.not_eq_true'] at this
        rcases List.mem_map.mp hk2 with ⟨p, hp, hfst⟩
        have hany : rest.any (fun q => q.1 = k2) = true :=
          List.any_eq_true.mpr ⟨p, hp, by simp [hfst]⟩
        rw [hany] at this
        cases this
      have h1 := hdisj k2 (by simp [hk2])
      have hne2 : ¬ k = k2 := fun hh => hne hh.symm
      simp [List.any_append, h1, hne2]

theorem mirrorEntries_keys (K : String) :
    ∀ es : List (String × PyVal),
      (mirrorEntries K es).map Prod.fst = es.map Prod.fst := by
  intro es
  induction es with
  | nil => rfl
  | cons e rest ih =>
    obtain ⟨k, v⟩ := e
    simp only [mirrorEntries, List.map_cons, ih]

theorem wfEntries_not_subKey {K : String} :
    ∀ {es : List (String × PyVal)}, wfEntries K es = true →
      ∀ k, k ∈ es.map Prod.fst → ¬ k = K := by
  intro es
  induction es with
  | nil => intro _ k h; simp at h
  | cons e rest ih =>
    intro hwf k hk
    obtain ⟨k1, v1⟩ := e
    simp only [wfEntries, Bool.and_eq_true] at hwf
    simp only [List.map_cons, List.mem_cons] at hk
    rcases hk with h1 | h1
    · subst h1
      have := hwf.1.1.1.2
      simpa using this
    · exact ih hwf.2 k h1

theorem wfEntries_nodup {K : String} :
    ∀ {es : List (String × PyVal)}, wfEntries K es = true →
      nodupKeys es = true := by
  intro es
  induction es with
  | nil => intro _; rfl
  | cons e rest ih =>
    intro hwf
    obtain ⟨k1, v1⟩ := e
    simp only [wfEntries, Bool.and_eq_true] at hwf
    simp only [nodupKeys, Bool.and_eq_true]
    exact ⟨hwf.1.1.2, ih hwf.2⟩

theorem nodupKeys_mirrorEntries {K : String} :
    ∀ {es : List (String × PyVal)}, nodupKeys es = true →
      nodupKeys (mirrorEntries K es) = true := by
  intro es
  induction es with
  | nil => intro _; rfl
  | cons e rest ih =>
    intro hnd
    obtain ⟨k1, v1⟩ := e
    simp only [nodupKeys, Bool.and_eq_true] at hnd
    simp only [mirrorEntries, nodupKeys, Bool.and_eq_true]
    refine ⟨?_, ih hnd.2⟩
    have h1 := hnd.1
    simp only [Bool.not_eq_true'] at h1 ⊢
    rw [show (mirrorEntries K rest).any (fun p => p.1 = k1) =
      rest.any (fun p => p.1 = k1) from ?_]
    · exact h1
    · clear h1 hnd ih
      induction rest with
      | nil => rfl
      | cons e2 r2 ih2 =>
        obtain ⟨k2, v2⟩ := e2
        simp only [mirrorEntries, List.any_cons, ih2]

theorem splitFirst_eq_none_of_not_hasDot {s : String} (h : hasDot s = false) :
    splitFirst '.' s = none := by
  unfold hasDot at h
  match hs : splitFirst '.' s with
  | none => rfl
  | some p => rw [hs] at h; cases h

theorem keys_mk (m : Bool) (K : String) (es : List (String × PyVal)) :
    (NameSpace.mk m K es).keys = es.map Prod.fst := rfl

/-- The build-structure pack: over a plain configuration dictionary (see
`wfEntries`) the loading cluster computes exactly the `mirrorEntries` image —
children are fresh namespaces built from the nested dictionaries, everything
else is stored verbatim, and sub-config delegation never fires (no marker
keys).  One induction on the fuel, as in `noDot_pack`. -/
theorem mirror_pack (fs : FS) : ∀ f : Nat,
    (∀ ns d res, ns.modifiable = true →
      NameSpace.update fs f ns (.dict d) = .ok res →
      wfEntries ns.subKey d = true →
      res = .mk true ns.subKey
        (pyDictUpdate ns.entries (mirrorEntries ns.subKey d))) ∧
    (∀ d mod K res, NameSpace.mkNS fs f (.dict d) mod K = .ok res →
      wfEntries K d = true → res = .mk mod K (mirrorEntries K d)) ∧
    (∀ ns acc items res, ns.modifiable = true →
      buildLocal fs f ns acc items = .ok res →
      wfEntries ns.subKey items = true →
      res = pyDictUpdate acc (mirrorEntries ns.subKey items)) ∧
    (∀ ns name xs res, buildListElems fs f ns name xs = .ok res →
      wfElems xs = true → res = xs) ∧
    (∀ ns name value res, ns.modifiable = true →
      loadSubconfig fs f ns name value = .ok res →
      wfEntries ns.subKey value = true →
      res = .mk true ns.subKey (mirrorEntries ns.subKey value)) := by
  intro f
  induction f with
  | zero =>
    refine ⟨?_, ?_, ?_, ?_, ?_⟩
    · intro ns d res _ h; simp [NameSpace.update] at h
    · intro d mod K res h; simp [NameSpace.mkNS] at h
    · intro ns acc items res _ h; simp [buildLocal] at h
    · intro ns name xs res h; simp [buildListElems] at h
    · intro ns name value res _ h; simp [loadSubconfig] at h
  | succ f ih =>
    obtain ⟨IHupd, IHmk, IHbl, IHble, IHls⟩ := ih
    refine ⟨?_, ?_, ?_, ?_, ?_⟩
    -- update
    · intro ns d res hmod h hwf
      simp only [NameSpace.update, loadCfg, Bind.bind, Except.bind] at h
      match hb : buildLocal fs f ns [] d with
      | .error e => rw [hb] at h; cases h
      | .ok localCfg =>
        rw [hb] at h
        simp only at h
        cases h
        rw [IHbl ns [] d localCfg hmod hb hwf, hmod,
          @pyDictUpdate_append (mirrorEntries ns.subKey d) []
            (fun k _ => rfl)
            (nodupKeys_mirrorEntries (wfEntries_nodup hwf))]
        simp
    -- mkNS
    · intro d mod K res h hwf
      simp only [NameSpace.mkNS, Bind.bind, Except.bind] at h
      match hu : NameSpace.update fs f (.mk true K []) (.dict d) with
      | .error e => rw [hu] at h; cases h
      | .ok n1 =>
        rw [hu] at h
        simp only at h
        cases h
        have h1 := IHupd (.mk true K []) d n1 rfl hu hwf
        subst h1
        have h2 : pyDictUpdate ([] : List (String × PyVal))
            (mirrorEntries K d) = mirrorEntries K d := by
          rw [@pyDictUpdate_append (mirrorEntries K d) []
            (fun k _ => rfl)
            (nodupKeys_mirrorEntries (wfEntries_nodup hwf))]
          simp
        simp only [NameSpace.subKey, NameSpace.entries]
        rw [h2]
    -- buildLocal
    · intro ns acc items res hmod h hwf
      match items with
      | [] =>
        simp only [buildLocal] at h
        cases h
        simp [mirrorEntries, pyDictUpdate]
      | (name, value) :: rest =>
        simp only [buildLocal, Bind.bind, Except.bind] at h
        simp only [wfEntries, Bool.and_eq_true] at hwf
        rw [splitFirst_eq_none_of_not_hasDot (by simpa using hwf.1.1.1.1)] at h
        simp only at h
        cases value with
        | dict sub =>
          simp only at h
          match hls : loadSubconfig fs f ns name sub with
          | .error e => rw [hls] at h; cases h
          | .ok nsub =>
            rw [hls] at h
            simp only at h
            rw [IHbl ns _ rest res hmod h hwf.2,
              IHls ns name sub nsub hmod hls hwf.1.2]
            simp [mirrorEntries, mirrorVal, pyDictUpdate]
        | list xs =>
          simp only at h
          match hble : buildListElems fs f ns name xs with
          | .error e => rw [hble] at h; cases h
          | .ok xs' =>
            rw [hble] at h
            simp only at h
            rw [IHbl ns _ rest res hmod h hwf.2,
              IHble ns name xs xs' hble hwf.1.2]
            simp [mirrorEntries, mirrorVal, pyDictUpdate]
        | str s =>
          simp only at h
          rw [IHbl ns _ rest res hmod h hwf.2]
          simp [mirrorEntries, mirrorVal, pyDictUpdate]
        | int n =>
          simp only at h
          rw [IHbl ns _ rest res hmod h hwf.2]
          simp [mirrorEntries, mirrorVal, pyDictUpdate]
        | bool b =>
          simp only at h
          rw [IHbl ns _ rest res hmod h hwf.2]
          simp [mirrorEntries, mirrorVal, pyDictUpdate]
        | null =>
          simp only at h
          rw [IHbl ns _ rest res hmod h hwf.2]
          simp [mirrorEntries, mirrorVal, pyDictUpdate]
        | ns n =>
          exact absurd hwf.1.2 (by simp [wfVal])
    -- buildListElems
    · intro ns name xs res h hwf
      match xs with
      | [] =>
        simp only [buildListElems] at h
        cases h
        rfl
      | x :: rest =>
        simp only [buildListElems, Bind.bind, Except.bind] at h
        cases x with
        | dict d => exact absurd hwf (by simp [wfElems])
        | ns n => exact absurd hwf (by simp [wfElems])
        | list ys =>
          simp only at h
          simp only [wfElems, Bool.and_eq_true] at hwf
          match hrest : buildListElems fs f ns name rest with
          | .error e => rw [hrest] at h; cases h
          | .ok rest' =>
            rw [hrest] at h
            simp only at h
            cases h
            rw [IHble ns name rest rest' hrest hwf.2]
        | str s =>
          simp only at h
          have hwf' : wfElems rest = true := by
            simpa [wfElems] using hwf
          match hrest : buildListElems fs f ns name rest with
          | .error e => rw [hrest] at h; cases h
          | .ok rest' =>
            rw [hrest] at h
            simp only at h
            cases h
            rw [IHble ns name rest rest' hrest hwf']
        | int n =>
          simp only at h
          have hwf' : wfElems rest = true := by
            simpa [wfElems] using hwf
          match hrest : buildListElems fs f ns name rest with
          | .error e => rw [hrest] at h; cases h
          | .ok rest' =>
            rw [hrest] at h
            simp only at h
            cases h
            rw [IHble ns name rest rest' hrest hwf']
        | bool b =>
          simp only at h
          have hwf' : wfElems rest = true := by
            simpa [wfElems] using hwf
          match hrest : buildListElems fs f ns name rest with
          | .error e => rw [hrest] at h; cases h
          | .ok rest' =>
            rw [hrest] at h
            simp only at h
            cases h
            rw [IHble ns name rest rest' hrest hwf']
        | null =>
          simp only at h
          have hwf' : wfElems rest = true := by
            simpa [wfElems] using hwf
          match hrest : buildListElems fs f ns name rest with
          | .error e => rw [hrest] at h; cases h
          | .ok rest' =>
            rw [hrest] at h
            simp only at h
            cases h
            rw [IHble ns name rest rest' hrest hwf']
    -- loadSubconfig
    · intro ns name value res hmod h hwf
      simp only [loadSubconfig, Bind.bind, Except.bind] at h
      match hmk : NameSpace.mkNS fs f (.dict value) ns.modifiable ns.subKey with
      | .error e => rw [hmk] at h; cases h
      | .ok N =>
        rw [hmk] at h
        simp only at h
        have hN := IHmk value ns.modifiable ns.subKey N hmk hwf
        subst hN
        rw [if_neg ?_] at h
        · cases h
          rw [hmod]
        · intro hm
          rw [keys_mk, mirrorEntries_keys] at hm
          exact wfEntries_not_subKey hwf ns.subKey hm rfl

mutual

theorem dictEntries_mirrorEntries (K : String) :
    ∀ es : List (String × PyVal), wfEntries K es = true →
      dictEntries (mirrorEntries K es) = es
  | [], _ => rfl
  | (k, v) :: rest, hwf => by
    simp only [wfEntries, Bool.and_eq_true] at hwf
    simp only [mirrorEntries, dictEntries]
    rw [dictVal_mirrorVal K v hwf.1.2, dictEntries_mirrorEntries K rest hwf.2]

theorem dictVal_mirrorVal (K : String) :
    ∀ v : PyVal, wfVal K v = true → dictVal (mirrorVal K v) = v
  | .dict sub, hwf => by
    simp only [mirrorVal, dictVal, NameSpace.dict]
    rw [dictEntries_mirrorEntries K sub (by simpa [wfVal] using hwf)]
  | .list xs, _ => rfl
  | .str s, _ => rfl
  | .int n, _ => rfl
  | .bool b, _ => rfl
  | .null, _ => rfl
  | .ns n, hwf => by simp [wfVal] at hwf

end

theorem anyKey_eq_false_iff (es : List (String × PyVal)) (k : String) :
    (es.any (fun p => p.1 = k)) = false ↔ k ∉ es.map Prod.fst := by
  induction es with
  | nil => simp
  | cons e rest ih =>
    obtain ⟨k1, v1⟩ := e
    simp only [List.any_cons, Bool.or_eq_false_iff, List.map_cons,
      List.mem_cons, not_or, ih]
    constructor
    · rintro ⟨h1, h2⟩
      exact ⟨fun hh => by simp [hh] at h1, h2⟩
    · rintro ⟨h1, h2⟩
      exact ⟨by simpa using (fun hh => h1 hh.symm), h2⟩

theorem dictEntries_keys_any (es : List (String × PyVal)) (k : String) :
    ((dictEntries es).any (fun p => p.1 = k)) = es.any (fun p => p.1 = k) := by
  induction es with
  | nil => rfl
  | cons e rest ih =>
    obtain ⟨k1, v1⟩ := e
    simp only [dictEntries, List.any_cons, ih]

mutual

theorem wfNS_dictEntries (K : String) :
    ∀ ns : NameSpace, wfNS K ns = true →
      wfEntries K (dictEntries ns.entries) = true
  | .mk m k es, hwf => by
    simp only [wfNS, Bool.and_eq_true] at hwf
    exact wfNSEntries_dictEntries K es hwf.2

theorem wfNSEntries_dictEntries (K : String) :
    ∀ es : List (String × PyVal), wfNSEntries K es = true →
      wfEntries K (dictEntries es) = true
  | [], _ => rfl
  | (k, v) :: rest, hwf => by
    simp only [wfNSEntries, Bool.and_eq_true] at hwf
    simp only [dictEntries, wfEntries, Bool.and_eq_true]
    refine ⟨⟨⟨⟨hwf.1.1.1.1, hwf.1.1.1.2⟩, ?_⟩,
      wfNSVal_dictVal K v hwf.1.2⟩, wfNSEntries_dictEntries K rest hwf.2⟩
    rw [dictEntries_keys_any]
    exact hwf.1.1.2

theorem wfNSVal_dictVal (K : String) :
    ∀ v : PyVal, wfNSVal K v = true → wfVal K (dictVal v) = true
  | .ns n, hwf => by
    match n with
    | .mk m k es =>
      simp only [dictVal, NameSpace.dict, wfVal]
      exact wfNS_dictEntries K (.mk m k es) (by simpa [wfNSVal] using hwf)
  | .list xs, hwf => by simpa [wfNSVal, dictVal, wfVal] using hwf
  | .str s, _ => rfl
  | .int n, _ => rfl
  | .bool b, _ => rfl
  | .null, _ => rfl
  | .dict d, hwf => by simp [wfNSVal] at hwf

end

/-! ### Claim C5 — clone -/

/-- **C5, amended.**  For a namespace tree that is the image of a plain
configuration dictionary (`wfNS`: no raw dictionaries, no namespaces inside
sequences, no marker keys, period-free distinct keys), a successful
`clone()` — rebuild from `self.dict()` with the same root `_modifiable` and
`_sub_config_key` — produces a tree whose `dict()` output is structurally
equal to the original's.  (In this embedding mutation is functional, so the
spec's independence statement reduces to the clone being rebuilt from the
plain `dict()` data; the aliasing failure for sequence-nested namespaces is
the counterexample.) -/
theorem claim5_clone_dict (fs : FS) (f : Nat) (K : String) (ns c : NameSpace)
    (hwf : wfNS K ns = true) (h : NameSpace.clone fs f ns = .ok c) :
    c.dict = ns.dict := by
  unfold NameSpace.clone at h
  match ns, hwf with
  | .mk m k es, hwf =>
    have hwfe : wfEntries k (dictEntries es) = true := by
      have hk : k = K := by
        simp only [wfNS, Bool.and_eq_true] at hwf
        simpa using hwf.1
      subst hk
      exact wfNS_dictEntries k (.mk m k es) hwf
    have hc := (mirror_pack fs f).2.1 (dictEntries es) m k c
      (by exact h) hwfe
    subst hc
    show PyVal.dict (dictEntries (mirrorEntries k (dictEntries es))) =
      PyVal.dict (dictEntries es)
    rw [dictEntries_mirrorEntries k (dictEntries es) hwfe]

/-- **C5, counterexample.**  The claim quantifies over every tree.  Store a
sequence containing a raw mapping (`ns["x"] = [{"a": 1}]`, stored verbatim
by `__setitem__`): rebuilding promotes the mapping element to a namespace,
so the clone's `dict()` holds a `NameSpace` object inside the list where the
original's holds a plain mapping — the two `dict()` outputs differ (and the
namespace object inside the rebuilt list is the very value passed through,
Python reference sharing rather than a deep copy). -/
theorem claim5_counterexample :
    NameSpace.setItem emptyFS 5 (.mk true "yaml" []) "x"
        (.list [.dict [("a", .int 1)]]) =
      .ok (.mk true "yaml" [("x", .list [.dict [("a", .int 1)]])]) ∧
    NameSpace.clone emptyFS 20
        (.mk true "yaml" [("x", .list [.dict [("a", .int 1)]])]) =
      .ok (.mk true "yaml"
        [("x", .list [.ns (.mk true "yaml" [("a", .int 1)])])]) ∧
    (NameSpace.mk true "yaml"
        [("x", .list [.ns (.mk true "yaml" [("a", .int 1)])])]).dict ≠
      (NameSpace.mk true "yaml" [("x", .list [.dict [("a", .int 1)]])]).dict := by
  refine ⟨rfl, rfl, fun h => ?_⟩
  have h1 : PyVal.dict [("x", .list [.ns (.mk true "yaml" [("a", .int 1)])])] =
      PyVal.dict [("x", .list [.dict [("a", .int 1)]])] := h
  injection h1 with h2
  injection h2 with h3 _
  injection h3 with _ h4
  injection h4 with h5
  injection h5 with h6 _
  exact PyVal.noConfusion h6

/-- **C5, witness.**  Cloning `{a: {b: 1}, c: "x"}` succeeds and reproduces
the tree; its `dict()` output equals the original's. -/
theorem claim5_clone_dict_witness :
    wfNS "yaml" (.mk true "yaml"
      [("a", .ns (.mk true "yaml" [("b", .int 1)])), ("c", .str "x")]) = true ∧
    NameSpace.clone emptyFS 20 (.mk true "yaml"
      [("a", .ns (.mk true "yaml" [("b", .int 1)])), ("c", .str "x")]) =
      .ok (.mk true "yaml"
        [("a", .ns (.mk true "yaml" [("b", .int 1)])), ("c", .str "x")]) ∧
    (NameSpace.mk true "yaml"
      [("a", .ns (.mk true "yaml" [("b", .int 1)])), ("c", .str "x")]).dict =
      (NameSpace.mk true "yaml"
        [("a", .ns (.mk true "yaml" [("b", .int 1)])), ("c", .str "x")]).dict :=
  ⟨rfl, rfl,
    claim5_clone_dict emptyFS 20 "yaml"
      (.mk true "yaml" [("a", .ns (.mk true "yaml" [("b", .int 1)])),
        ("c", .str "x")])
      (.mk true "yaml" [("a", .ns (.mk true "yaml" [("b", .int 1)])),
        ("c", .str "x")])
      rfl rfl⟩

theorem splitCharFirst_append {k x : List Char} (h : '.' ∉ k) :
    splitCharFirst '.' (k ++ '.' :: x) = some (k, x) := by
  induction k with
  | nil => simp [splitCharFirst]
  | cons c rest ih =>
    simp only [List.mem_cons, not_or] at h
    simp only [List.cons_append, splitCharFirst]
    rw [if_neg (fun hc => h.1 hc.symm)]
    rw [show rest.append ('.' :: x) = rest ++ '.' :: x from rfl, ih h.2]

theorem splitCharFirst_none_not_mem {c : Char} :
    ∀ {l : List Char}, splitCharFirst c l = none → c ∉ l := by
  intro l
  induction l with
  | nil => intro _; simp
  | cons d rest ih =>
    intro h
    simp only [splitCharFirst] at h
    by_cases hd : d = c
    · rw [if_pos hd] at h; cases h
    · rw [if_neg hd] at h
      match hrec : splitCharFirst c rest with
      | some p => rw [hrec] at h; cases h
      | none =>
        intro hmem
        rcases List.mem_cons.mp hmem with h1 | h1
        · exact hd h1.symm
        · exact ih hrec h1

theorem not_hasDot_not_mem {k : String} (h : hasDot k = false) :
    '.' ∉ k.data := by
  unfold hasDot splitFirst at h
  match hm : splitCharFirst '.' k.data with
  | some p => rw [hm] at h; cases h
  | none => exact splitCharFirst_none_not_mem hm

theorem headSeg_prefixed {k x : String} (h : hasDot k = false) :
    headSeg (k ++ "." ++ x) = k := by
  unfold headSeg splitFirst
  have hdata : (k ++ "." ++ x).data = k.data ++ '.' :: x.data := by
    simp [String.data_append]
  rw [hdata, splitCharFirst_append (not_hasDot_not_mem h)]

theorem headSeg_self {k : String} (h : hasDot k = false) :
    headSeg k = k := by
  unfold headSeg
  rw [splitFirst_eq_none_of_not_hasDot h]

theorem flatten_head_mem {K : String} :
    ∀ {d : List (String × PyVal)}, wfEntries K d = true →
      ∀ p ∈ flattenSpec d, headSeg p.1 ∈ d.map Prod.fst := by
  intro d
  induction d with
  | nil => intro _ p hp; simp [flattenSpec] at hp
  | cons e rest ih =>
    intro hwf p hp
    obtain ⟨k, v⟩ := e
    simp only [wfEntries, Bool.and_eq_true] at hwf
    have hkd : hasDot k = false := by simpa using hwf.1.1.1.1
    match v, hp with
    | .dict sub, hp =>
      simp only [flattenSpec, List.mem_append] at hp
      rcases hp with hp | hp
      · rcases List.mem_map.mp hp with ⟨q, _, hq⟩
        subst hq
        simp only [List.map_cons, List.mem_cons]
        exact Or.inl (headSeg_prefixed hkd)
      · simp only [List.map_cons, List.mem_cons]
        exact Or.inr (ih hwf.2 p hp)
    | .str s, hp =>
      simp only [flattenSpec, List.mem_cons] at hp
      rcases hp with hp | hp
      · subst hp; simp [headSeg_self hkd]
      · simp only [List.map_cons, List.mem_cons]
        exact Or.inr (ih hwf.2 p hp)
    | .int n, hp =>
      simp only [flattenSpec, List.mem_cons] at hp
      rcases hp with hp | hp
      · subst hp; simp [headSeg_self hkd]
      · simp only [List.map_cons, List.mem_cons]
        exact Or.inr (ih hwf.2 p hp)
    | .bool b, hp =>
      simp only [flattenSpec, List.mem_cons] at hp
      rcases hp with hp | hp
      · subst hp; simp [headSeg_self hkd]
      · simp only [List.map_cons, List.mem_cons]
        exact Or.inr (ih hwf.2 p hp)
    | .null, hp =>
      simp only [flattenSpec, List.mem_cons] at hp
      rcases hp with hp | hp
      · subst hp; simp [headSeg_self hkd]
      · simp only [List.map_cons, List.mem_cons]
        exact Or.inr (ih hwf.2 p hp)
    | .list xs, hp =>
      simp only [flattenSpec, List.mem_cons] at hp
      rcases hp with hp | hp
      · subst hp; simp [headSeg_self hkd]
      · simp only [List.map_cons, List.mem_cons]
        exact Or.inr (ih hwf.2 p hp)
    | .ns n, hp => exact absurd hwf.1.2 (by simp [wfVal])

theorem prefixed_inj {k a b : String} (h : k ++ "." ++ a = k ++ "." ++ b) :
    a = b := by
  apply String.ext
  have hd := congrArg String.data h
  simp only [String.data_append] at hd
  exact List.append_cancel_left hd

theorem wfEntries_head_not_in_rest {K k : String} {v : PyVal}
    {rest : List (String × PyVal)}
    (hwf : wfEntries K ((k, v) :: rest) = true) : k ∉ rest.map Prod.fst := by
  simp only [wfEntries, Bool.and_eq_true] at hwf
  have := hwf.1.1.2
  simp only [Bool.not_eq_true'] at this
  exact (anyKey_eq_false_iff rest k).mp this

theorem flatten_nodup {K : String} :
    ∀ d : List (String × PyVal), wfEntries K d = true →
      ((flattenSpec d).map Prod.fst).Nodup
  | [], _ => by simp [flattenSpec]
  | (k, v) :: rest, hwf => by
    have hwf' := hwf
    simp only [wfEntries, Bool.and_eq_true] at hwf'
    have hkd : hasDot k = false := by simpa using hwf'.1.1.1.1
    have hknr : k ∉ rest.map Prod.fst := wfEntries_head_not_in_rest hwf
    match v, hwf'.1.2 with
    | .dict sub, hv =>
      have hsub : wfEntries K sub = true := by simpa [wfVal] using hv
      simp only [flattenSpec, List.map_append]
      rw [List.nodup_append]
      refine ⟨?_, flatten_nodup rest hwf'.2, ?_⟩
      · rw [show (List.map Prod.fst
            ((flattenSpec sub).map (fun p => (k ++ "." ++ p.1, p.2)))) =
            (List.map (fun a => k ++ "." ++ a)
              ((flattenSpec sub).map Prod.fst)) from by
          simp [List.map_map]]
        exact List.Nodup.map (fun a b hab => prefixed_inj hab)
          (flatten_nodup sub hsub)
      · intro a ha hb
        rcases List.mem_map.mp ha with ⟨q, hqm, hq⟩
        rcases List.mem_map.mp hqm with ⟨p0, _, hp0⟩
        subst hp0
        have hha : headSeg a = k := by rw [← hq]; exact headSeg_prefixed hkd
        rcases List.mem_map.mp hb with ⟨p, hp, hpb⟩
        have hhb : headSeg a ∈ rest.map Prod.fst := by
          rw [← hpb]
          exact flatten_head_mem hwf'.2 p hp
        rw [hha] at hhb
        exact hknr hhb
    | .str s, _ =>
      simp only [flattenSpec, List.map_cons, List.nodup_cons]
      refine ⟨?_, flatten_nodup rest hwf'.2⟩
      intro hk
      rcases List.mem_map.mp hk with ⟨p, hp, hpk⟩
      have := flatten_head_mem hwf'.2 p hp
      rw [hpk, headSeg_self hkd] at this
      exact hknr this
    | .int n, _ =>
      simp only [flattenSpec, List.map_cons, List.nodup_cons]
      refine ⟨?_, flatten_nodup rest hwf'.2⟩
      intro hk
      rcases List.mem_map.mp hk with ⟨p, hp, hpk⟩
      have := flatten_head_mem hwf'.2 p hp
      rw [hpk, headSeg_self hkd] at this
      exact hknr this
    | .bool b, _ =>
      simp only [flattenSpec, List.map_cons, List.nodup_cons]
      refine ⟨?_, flatten_nodup rest hwf'.2⟩
      intro hk
      rcases List.mem_map.mp hk with ⟨p, hp, hpk⟩
      have := flatten_head_mem hwf'.2 p hp
      rw [hpk, headSeg_self hkd] at this
      exact hknr this
    | .null, _ =>
      simp only [flattenSpec, List.map_cons, List.nodup_cons]
      refine ⟨?_, flatten_nodup rest hwf'.2⟩
      intro hk
      rcases List.mem_map.mp hk with ⟨p, hp, hpk⟩
      have := flatten_head_mem hwf'.2 p hp
      rw [hpk, headSeg_self hkd] at this
      exact hknr this
    | .list xs, _ =>
      simp only [flattenSpec, List.map_cons, List.nodup_cons]
      refine ⟨?_, flatten_nodup rest hwf'.2⟩
      intro hk
      rcases List.mem_map.mp hk with ⟨p, hp, hpk⟩
      have := flatten_head_mem hwf'.2 p hp
      rw [hpk, headSeg_self hkd] at this
      exact hknr this
    | .ns n, hv => exact absurd hv (by simp [wfVal])
termination_by d => sizeOf d

theorem nodupKeys_iff (es : List (String × PyVal)) :
    nodupKeys es = true ↔ (es.map Prod.fst).Nodup := by
  induction es with
  | nil => simp [nodupKeys]
  | cons e rest ih =>
    obtain ⟨k, v⟩ := e
    simp only [nodupKeys, Bool.and_eq_true, List.map_cons, List.nodup_cons,
      ← ih, Bool.not_eq_true']
    rw [anyKey_eq_false_iff]

theorem attrFold_mirror {K : String} :
    ∀ (d acc : List (String × PyVal)), wfEntries K d = true →
      (∀ a ∈ acc.map Prod.fst, headSeg a ∉ d.map Prod.fst) →
      attrFold acc (mirrorEntries K d) = acc ++ flattenSpec d
  | [], acc, _, _ => by simp [mirrorEntries, attrFold, flattenSpec]
  | (k, v) :: rest, acc, hwf, hdisj => by
    have hwf' := hwf
    simp only [wfEntries, Bool.and_eq_true] at hwf'
    have hkd : hasDot k = false := by simpa using hwf'.1.1.1.1
    have hknr : k ∉ rest.map Prod.fst := wfEntries_head_not_in_rest hwf
    have hkacc : k ∉ acc.map Prod.fst := fun hmem =>
      (hdisj k hmem) (by rw [headSeg_self hkd]; simp)
    have holdDisj : ∀ a ∈ acc.map Prod.fst, headSeg a ∉ rest.map Prod.fst :=
      fun a ha hmem => (hdisj a ha) (by simp [hmem])
    match v, hwf'.1.2 with
    | .dict sub, hv =>
      have hsub : wfEntries K sub = true := by simpa [wfVal] using hv
      simp only [mirrorEntries, mirrorVal, attrFold, NameSpace.attributes]
      rw [attrFold_mirror sub [] hsub (by simp)]
      simp only [List.nil_append]
      have hpref : pyDictUpdate acc
          ((flattenSpec sub).map (fun p => (k ++ "." ++ p.1, p.2))) =
          acc ++ (flattenSpec sub).map (fun p => (k ++ "." ++ p.1, p.2)) := by
        apply pyDictUpdate_append
        · intro key hkey
          rcases List.mem_map.mp hkey with ⟨q, hqm, hq⟩
          rcases List.mem_map.mp hqm with ⟨p0, hp0m, hp0⟩
          subst hp0
          rw [anyKey_eq_false_iff]
          intro hka
          have := hdisj key hka
          rw [← hq] at this
          exact this (by rw [show ((k ++ "." ++ p0.1, p0.2) : String × PyVal).1 =
            k ++ "." ++ p0.1 from rfl, headSeg_prefixed hkd]; simp)
        · rw [nodupKeys_iff]
          rw [show (List.map Prod.fst
              ((flattenSpec sub).map (fun p => (k ++ "." ++ p.1, p.2)))) =
              (List.map (fun a => k ++ "." ++ a)
                ((flattenSpec sub).map Prod.fst)) from by simp [List.map_map]]
          exact List.Nodup.map (fun a b hab => prefixed_inj hab)
            (flatten_nodup sub hsub)
      rw [hpref]
      rw [attrFold_mirror rest
        (acc ++ (flattenSpec sub).map (fun p => (k ++ "." ++ p.1, p.2)))
        hwf'.2 ?_]
      · simp [flattenSpec]
      · intro a ha
        simp only [List.map_append, List.mem_append] at ha
        rcases ha with ha | ha
        · exact holdDisj a ha
        · rcases List.mem_map.mp ha with ⟨q, hqm, hq⟩
          rcases List.mem_map.mp hqm with ⟨p0, hp0m, hp0⟩
          subst hp0
          rw [← hq, show ((k ++ "." ++ p0.1, p0.2) : String × PyVal).1 =
            k ++ "." ++ p0.1 from rfl, headSeg_prefixed hkd]
          exact hknr
    | .str s, _ =>
      simp only [mirrorEntries, mirrorVal, attrFold]
      rw [assign_not_mem _ ((anyKey_eq_false_iff acc k).mpr hkacc)]
      rw [attrFold_mirror rest (acc ++ [(k, PyVal.str s)]) hwf'.2 ?_]
      · simp [flattenSpec]
      · intro a ha
        simp only [List.map_append, List.mem_append] at ha
        rcases ha with ha | ha
        · exact holdDisj a ha
        · simp only [List.map_cons, List.map_nil, List.mem_singleton] at ha
          subst ha
          rw [headSeg_self hkd]
          exact hknr
    | .int n, _ =>
      simp only [mirrorEntries, mirrorVal, attrFold]
      rw [assign_not_mem _ ((anyKey_eq_false_iff acc k).mpr hkacc)]
      rw [attrFold_mirror rest (acc ++ [(k, PyVal.int n)]) hwf'.2 ?_]
      · simp [flattenSpec]
      · intro a ha
        simp only [List.map_append, List.mem_append] at ha
        rcases ha with ha | ha
        · exact holdDisj a ha
        · simp only [List.map_cons, List.map_nil, List.mem_singleton] at ha
          subst ha
          rw [headSeg_self hkd]
          exact hknr
    | .bool b, _ =>
      simp only [mirrorEntries, mirrorVal, attrFold]
      rw [assign_not_mem _ ((anyKey_eq_false_iff acc k).mpr hkacc)]
      rw [attrFold_mirror rest (acc ++ [(k, PyVal.bool b)]) hwf'.2 ?_]
      · simp [flattenSpec]
      · intro a ha
        simp only [List.map_append, List.mem_append] at ha
        rcases ha with ha | ha
        · exact holdDisj a ha
        · simp only [List.map_cons, List.map_nil, List.mem_singleton] at ha
          subst ha
          rw [headSeg_self hkd]
          exact hknr
    | .null, _ =>
      simp only [mirrorEntries, mirrorVal, attrFold]
      rw [assign_not_mem _ ((anyKey_eq_false_iff acc k).mpr hkacc)]
      rw [attrFold_mirror rest (acc ++ [(k, PyVal.null)]) hwf'.2 ?_]
      · simp [flattenSpec]
      · intro a ha
        simp only [List.map_append, List.mem_append] at ha
        rcases ha with ha | ha
        · exact holdDisj a ha
        · simp only [List.map_cons, List.map_nil, List.mem_singleton] at ha
          subst ha
          rw [headSeg_self hkd]
          exact hknr
    | .list xs, _ =>
      simp only [mirrorEntries, mirrorVal, attrFold]
      rw [assign_not_mem _ ((anyKey_eq_false_iff acc k).mpr hkacc)]
      rw [attrFold_mirror rest (acc ++ [(k, PyVal.list xs)]) hwf'.2 ?_]
      · simp [flattenSpec]
      · intro a ha
        simp only [List.map_append, List.mem_append] at ha
        rcases ha with ha | ha
        · exact holdDisj a ha
        · simp only [List.map_cons, List.map_nil, List.mem_singleton] at ha
          subst ha
          rw [headSeg_self hkd]
          exact hknr
    | .ns n, hv => exact absurd hv (by simp [wfVal])
termination_by d _ => sizeOf d

/-! ### Claim C7 — the attribute view of a plain mapping -/

/-- **C7, amended.**  For a plain mapping `M` (no dotted keys, no sub-config
markers, distinct keys, no mappings inside sequences), the attribute view of
the namespace built from `M` is exactly the dotted flattening of `M`: each
nested path appears as its period-joined key with the leaf value preserved,
in document order. -/
theorem claim7_attributes_flatten (fs : FS) (f : Nat) (K : String)
    (M : List (String × PyVal)) (ns : NameSpace)
    (hwf : wfEntries K M = true)
    (h : NameSpace.mkNS fs f (.dict M) true K = .ok ns) :
    ns.attributes = flattenSpec M := by
  have hns := (mirror_pack fs f).2.1 M true K ns h hwf
  subst hns
  show attrFold [] (mirrorEntries K M) = flattenSpec M
  rw [attrFold_mirror M [] hwf (by simp)]
  simp

/-- **C7, counterexample.**  The claim states the attribute view reproduces
`M` *exactly*.  For the nested mapping `M = {a: {b: 1}}` the view is
`{"a.b": 1}`, whose key differs from `M`'s key `a`, so the view is the
flattening of `M`, not `M` itself. -/
theorem claim7_counterexample :
    NameSpace.mkNS emptyFS 10 (.dict [("a", .dict [("b", .int 1)])])
        true "yaml" =
      .ok (.mk true "yaml" [("a", .ns (.mk true "yaml" [("b", .int 1)]))]) ∧
    (NameSpace.mk true "yaml"
        [("a", .ns (.mk true "yaml" [("b", .int 1)]))]).attributes =
      [("a.b", .int 1)] ∧
    ([("a.b", PyVal.int 1)] : List (String × PyVal)) ≠
      [("a", .dict [("b", .int 1)])] := by
  refine ⟨rfl, rfl, fun h => ?_⟩
  injection h with h1 h2
  injection h1 with h3 h4
  exact absurd h3 (by decide)

/-- **C7, witness.**  `{name: "Bot", nested: {greeting: "hi"}}` builds and
flattens to `{name: "Bot", "nested.greeting": "hi"}`. -/
theorem claim7_attributes_flatten_witness :
    wfEntries "yaml" [("name", PyVal.str "Bot"),
      ("nested", .dict [("greeting", .str "hi")])] = true ∧
    NameSpace.mkNS emptyFS 10
        (.dict [("name", PyVal.str "Bot"),
          ("nested", .dict [("greeting", .str "hi")])]) true "yaml" =
      .ok (.mk true "yaml" [("name", .str "Bot"),
        ("nested", .ns (.mk true "yaml" [("greeting", .str "hi")]))]) ∧
    (NameSpace.mk true "yaml" [("name", .str "Bot"),
        ("nested", .ns (.mk true "yaml" [("greeting", .str "hi")]))]).attributes
      = flattenSpec [("name", PyVal.str "Bot"),
        ("nested", .dict [("greeting", .str "hi")])] ∧
    flattenSpec [("name", PyVal.str "Bot"),
        ("nested", .dict [("greeting", .str "hi")])] =
      [("name", PyVal.str "Bot"), ("nested.greeting", PyVal.str "hi")] :=
  ⟨rfl, rfl,
    claim7_attributes_flatten emptyFS 10 "yaml"
      [("name", PyVal.str "Bot"), ("nested", .dict [("greeting", .str "hi")])]
      (.mk true "yaml" [("name", .str "Bot"),
        ("nested", .ns (.mk true "yaml" [("greeting", .str "hi")]))])
      rfl rfl,
    by simp [flattenSpec]⟩
